import Mathlib

/-!
# batch_to_sqlite: ingestion of job summaries and log exports

A shallow embedding of `extractor.go` and `util.go`.

* Go strings are sequences of runes (`Str`).
* Values handed back by the standard library and the database driver (parsed JSON, parsed CSV,
  the results of `Begin`, `Prepare`, `Exec`, `Commit` and `Close`) are inputs of the model.
* `log.Fatal*` ends the process (`Exit.halted`); an index out of range is a run-time panic
  (`Exit.panicked`).
-/

namespace BatchToSqlite

set_option linter.unusedVariables false

/-- Go strings, as sequences of runes. -/
abbrev Str := List Char

/-! ## Regular expressions of the shape used by `uuidMatchingMachine` -/

/-- A character class `[...]` or `[^...]`. -/
structure CharClass where
  negated : Bool
  chars : List Char
deriving DecidableEq, Repr

/-- Whether the class accepts the rune. -/
def CharClass.accepts (k : CharClass) (c : Char) : Bool :=
  if k.negated then !(k.chars.contains c) else k.chars.contains c

/-- One factor of a concatenation: a literal rune or a counted repetition `[...]{n}`. -/
inductive Node where
  | lit (c : Char)
  | rep (k : CharClass) (n : Nat)
deriving DecidableEq, Repr

/-- A regular expression that is a concatenation of factors. -/
abbrev Regexp := List Node

/-- Consume exactly `n` runes accepted by `k`; the result is the consumed text and the rest. -/
def matchRep (k : CharClass) : Nat → Str → Option (Str × Str)
  | 0, s => some ([], s)
  | _ + 1, [] => none
  | n + 1, c :: s =>
    if k.accepts c then
      match matchRep k n s with
      | some (m, rest) => some (c :: m, rest)
      | none => none
    else none

/-- Match the expression at the start of `s`; the result is the matched text and the rest. -/
def matchPrefix : Regexp → Str → Option (Str × Str)
  | [], s => some ([], s)
  | Node.lit c :: re, s =>
    match s with
    | [] => none
    | d :: s' =>
      if d = c then
        match matchPrefix re s' with
        | some (m, rest) => some (d :: m, rest)
        | none => none
      else none
  | Node.rep k n :: re, s =>
    match matchRep k n s with
    | none => none
    | some (m₁, s') =>
      match matchPrefix re s' with
      | some (m₂, rest) => some (m₁ ++ m₂, rest)
      | none => none

/-- The method `(*Regexp).FindString`: the text of the leftmost match, `""` when there is none. -/
def FindString (re : Regexp) : Str → Str
  | [] =>
    match matchPrefix re [] with
    | some (m, _) => m
    | none => []
  | c :: s =>
    match matchPrefix re (c :: s) with
    | some (m, _) => m
    | none => FindString re s

/-- The class `[^-]`. -/
def notHyphen : CharClass := ⟨true, ['-']⟩

/-- The pattern `[^-]{8}-[^-]{4}-[^-]{4}-[^-]{4}-[^-]{12}`. -/
def uuidMatchingMachine : Regexp :=
  [Node.rep notHyphen 8, Node.lit '-', Node.rep notHyphen 4, Node.lit '-',
   Node.rep notHyphen 4, Node.lit '-', Node.rep notHyphen 4, Node.lit '-',
   Node.rep notHyphen 12]

/-! ## What a match is, in words -/

/-- The text `m` has the shape 8-4-4-4-12: five runs of non-hyphen runes of those lengths,
separated by single hyphens. -/
def IsUuidShape (m : Str) : Prop :=
  ∃ a b c d e : Str,
    m = a ++ '-' :: (b ++ '-' :: (c ++ '-' :: (d ++ '-' :: e))) ∧
    a.length = 8 ∧ b.length = 4 ∧ c.length = 4 ∧ d.length = 4 ∧ e.length = 12 ∧
    '-' ∉ a ∧ '-' ∉ b ∧ '-' ∉ c ∧ '-' ∉ d ∧ '-' ∉ e

/-- The text `s` contains a substring of the shape 8-4-4-4-12. -/
def ContainsUuidShape (s : Str) : Prop :=
  ∃ pre m post : Str, s = pre ++ m ++ post ∧ IsUuidShape m

/-- The text `m` is the leftmost substring of `s` of the shape 8-4-4-4-12: it occurs in `s`
after `pre`, and no occurrence of the shape starts earlier. -/
def IsLeftmostUuid (s m : Str) : Prop :=
  ∃ pre post : Str, s = pre ++ m ++ post ∧ IsUuidShape m ∧
    ∀ pre' m' post' : Str, s = pre' ++ m' ++ post' → IsUuidShape m' → pre.length ≤ pre'.length

/-- The language of a concatenation of factors. -/
def Denotes : Regexp → Str → Prop
  | [], m => m = []
  | Node.lit c :: re, m => ∃ m', m = c :: m' ∧ Denotes re m'
  | Node.rep k n :: re, m =>
    ∃ a m', m = a ++ m' ∧ a.length = n ∧ (∀ x ∈ a, k.accepts x = true) ∧ Denotes re m'

/-- The number of runes of every text of the language. -/
def width : Regexp → Nat
  | [] => 0
  | Node.lit _ :: re => 1 + width re
  | Node.rep _ n :: re => n + width re

/-- Leftmost occurrence of a text of the language of `re` in `s`. -/
def IsLeftmostIn (re : Regexp) (s m : Str) : Prop :=
  ∃ pre post : Str, s = pre ++ m ++ post ∧ Denotes re m ∧
    ∀ pre' m' post' : Str, s = pre' ++ m' ++ post' → Denotes re m' → pre.length ≤ pre'.length

/-! ## Errors, time values, rows and the database -/

/-- Go `error` values: an error reported by a library call, an error wrapping another one
(`fmt.Errorf` with `%w`), or a new error describing another one (`fmt.Errorf` with `%v`). -/
inductive Error where
  | lib (code : Nat)
  | wrapped (text : String) (inner : Error)
  | described (text : String) (cause : Error)
deriving DecidableEq, Repr

/-- The location attached to a `time.Time`. -/
inductive Location where
  | UTC
  | Local
deriving DecidableEq, Repr

/-- A `time.Time`: seconds since the Unix epoch, nanoseconds within the second, location. -/
structure Time where
  sec : Int
  nsec : Int
  loc : Location
deriving DecidableEq, Repr

/-- The function `time.Unix`. -/
def Unix (sec nsec : Int) : Time :=
  if nsec < 0 ∨ nsec ≥ 1000000000 then
    let n := Int.tdiv nsec 1000000000
    let sec := sec + n
    let nsec := nsec - n * 1000000000
    if nsec < 0 then ⟨sec - 1, nsec + 1000000000, Location.Local⟩
    else ⟨sec, nsec, Location.Local⟩
  else ⟨sec, nsec, Location.Local⟩

/-- The function `time.UnixMilli`; Go's `/` and `%` truncate towards zero. No intermediate
value leaves the `int64` range when `msec` is an `int64`. -/
def UnixMilli (msec : Int) : Time :=
  Unix (Int.tdiv msec 1000) (Int.tmod msec 1000 * 1000000)

/-- The struct `JobSummary`. -/
structure JobSummary where
  JobId : Str
  JobName : Str
  CreatedAt : Int
  Status : Str
  StatusReason : Str
  StartedAt : Int
  StoppedAt : Int
  ExitCode : Int
deriving DecidableEq, Repr

/-- The struct `StatusesFile`. -/
structure StatusesFile where
  JobSummaryList : List JobSummary
deriving DecidableEq, Repr

/-- A row of table `batch`, columns in the order of the insert statement. -/
structure BatchRow where
  externalId : Str
  id : Str
  name : Str
  created : Time
  started : Time
  stopped : Time
  status : Str
  statusReason : Str
deriving DecidableEq, Repr

/-- A row of table `log`. -/
structure LogRow where
  id : Str
  ts : Time
  service : Str
  thread : Str
deriving DecidableEq, Repr

/-- The committed contents of the two tables, oldest row first. -/
structure DB where
  batch : List BatchRow
  log : List LogRow
deriving DecidableEq, Repr

/-- What the database calls of one per-record load report; `none` is a nil error. `closeErr` is
what the driver reports when the prepared statement is released. -/
structure TxOutcome where
  beginErr : Option Error
  prepareErr : Option Error
  execErr : Option Error
  commitErr : Option Error
  closeErr : Option Error
deriving DecidableEq, Repr

/-- The reasons for which the process is ended through `log.Fatal` or `log.Fatalf`. -/
inductive Fatal where
  | mustCheck (e : Error)
  | noInternalId
  | csvRead (e : Error)
  | fieldNotFound (field : Str)
  | timestamp (rowNumber : Nat) (row : List Str)
deriving DecidableEq, Repr

/-- Lines written to the log. -/
inductive LogEvent where
  | readBatchRecords (n : Int)
  | readLogRecords (n : Int)
  | recordFailed (e : Error)
  | fatal (why : Fatal)
deriving DecidableEq, Repr

/-- How a call of an ingestion entry point ends. -/
inductive Exit where
  | returned (err : Option Error)
  | halted
  | panicked
deriving DecidableEq, Repr

/-- The observable result of an ingestion call. -/
structure Run where
  db : DB
  logs : List LogEvent
  exit : Exit
deriving DecidableEq, Repr

/-! ## util.go -/

/-- The function `MustCheck`: `log.Fatal` on a non-nil error. -/
def MustCheck (err : Option Error) : Except Fatal Unit :=
  match err with
  | some e => Except.error (Fatal.mustCheck e)
  | none => Except.ok ()

/-- An `io.Closer` over a resource state `σ`: `Close` changes the resource and reports an error
or nil. -/
structure Closer (σ : Type) where
  Close : σ → σ × Option Error

/-- The function `SafeClose`: the resource after the call and the contents of the error slot
after the call. -/
def SafeClose {σ : Type} (c : Closer σ) (st : σ) (err : Option Error) : σ × Option Error :=
  let r := c.Close st
  let cerr := r.2
  if cerr ≠ none ∧ err = none then (r.1, cerr) else (r.1, err)

/-- A resource that counts how often it was released and reports `closeErr` on each release. -/
structure Stmt where
  closeErr : Option Error
  closes : Nat
deriving DecidableEq, Repr

/-- The `Close` method of a prepared statement. -/
def Stmt.closer : Closer Stmt :=
  ⟨fun st => ({ st with closes := st.closes + 1 }, st.closeErr)⟩

/-! ## extractor.go: summaries -/

/-- A `*sql.Stmt` prepared on a transaction (`tx.Prepare`): what the driver reports when the
statement is released, whether the statement is already closed, and how often the program has
called `Close` on it. -/
structure TxStmt where
  closeErr : Option Error
  closed : Bool
  closes : Nat
deriving DecidableEq, Repr

/-- The method `(*sql.Stmt).Close`: nil on a statement that is already closed, else the
statement is released and what the driver reports is returned. -/
def TxStmt.closer : Closer TxStmt :=
  ⟨fun st =>
    if st.closed then ({ st with closes := st.closes + 1 }, none)
    else ({ st with closed := true, closes := st.closes + 1 }, st.closeErr)⟩

/-- What a successful `tx.Commit` does to a statement prepared on the transaction: `Commit`
closes the statements of the transaction itself and discards what their release reports. -/
def TxStmt.afterCommit (st : TxStmt) : TxStmt := { st with closed := true }

/-- What is left of a per-record load when it returns: the value handed to the caller, the
local variable `err`, what the deferred `Close` reported, and the prepared statement. -/
structure Frame where
  ret : Option Error
  err : Option Error
  released : Option Error
  stmt : TxStmt
deriving DecidableEq, Repr

/-- A `return ret` in a function whose result is unnamed and which has deferred
`SafeClose(stmt, &err)`: the result is fixed to `ret`, then the deferred call runs on the local
variable `err`. -/
def returning (ret : Option Error) (err : Option Error) (stmt : TxStmt) : Frame :=
  let r := SafeClose TxStmt.closer stmt err
  ⟨ret, r.2, (TxStmt.closer.Close stmt).2, r.1⟩

/-- The arguments of `stmt.Exec` in `readBatchRecordIntoDB`. -/
def batchRow (matchId : Str) (s : JobSummary) : BatchRow :=
  ⟨s.JobId, matchId, s.JobName, UnixMilli s.CreatedAt, UnixMilli s.StartedAt,
    UnixMilli s.StoppedAt, s.Status, s.StatusReason⟩

/-- The method `readBatchRecordIntoDB`. `Except.error` is the end of the process. -/
def readBatchRecordIntoDB (o : TxOutcome) (db : DB) (s : JobSummary) :
    Except Fatal (DB × Frame) :=
  match MustCheck o.beginErr with
  | Except.error why => Except.error why
  | Except.ok _ =>
    match MustCheck o.prepareErr with
    | Except.error why => Except.error why
    | Except.ok _ =>
      let stmt : TxStmt := ⟨o.closeErr, false, 0⟩
      let matchId := FindString uuidMatchingMachine s.JobName
      if matchId = [] then Except.error Fatal.noInternalId
      else
        match o.execErr with
        | some e =>
          Except.ok (db, returning
            (some (Error.wrapped "failed to retrieve last inserted book" e)) (some e) stmt)
        | none =>
          match MustCheck o.commitErr with
          | Except.error why => Except.error why
          | Except.ok _ =>
            Except.ok ({ db with batch := db.batch ++ [batchRow matchId s] },
              returning none none stmt.afterCommit)

/-- What reading and decoding the summary file gives. -/
inductive SummaryInput where
  | unreadable (e : Error)
  | malformed (e : Error)
  | decoded (s : StatusesFile)
deriving DecidableEq, Repr

/-- The method `parseInput`, with the log line it writes. -/
def parseInput (f : SummaryInput) : Except Error StatusesFile × List LogEvent :=
  match f with
  | SummaryInput.unreadable e =>
    (Except.error (Error.described "unexpected problem: could not read from file" e), [])
  | SummaryInput.malformed e =>
    (Except.error (Error.described "unexpected problem: could not deserialize from JSON" e), [])
  | SummaryInput.decoded s =>
    (Except.ok s, [LogEvent.readBatchRecords s.JobSummaryList.length])

/-- The loop of `IngestBatchRecords` from record number `i` on, and the final `return nil`. -/
def ingestBatchLoop (env : Nat → TxOutcome) :
    Nat → DB → List LogEvent → List JobSummary → Run
  | _, db, logs, [] => ⟨db, logs, Exit.returned none⟩
  | i, db, logs, s :: rest =>
    match readBatchRecordIntoDB (env i) db s with
    | Except.error why => ⟨db, logs ++ [LogEvent.fatal why], Exit.halted⟩
    | Except.ok (db', fr) =>
      match fr.ret with
      | some errLoading =>
        ingestBatchLoop env (i + 1) db' (logs ++ [LogEvent.recordFailed errLoading]) rest
      | none => ingestBatchLoop env (i + 1) db' logs rest

/-- The method `IngestBatchRecords`; `env i` is what the database reports while record `i`
(counted from 0) is loaded. -/
def IngestBatchRecords (env : Nat → TxOutcome) (db : DB) (f : SummaryInput) : Run :=
  match parseInput f with
  | (Except.error err, logs) => ⟨db, logs, Exit.returned (some err)⟩
  | (Except.ok s, logs) => ingestBatchLoop env 0 db logs s.JobSummaryList

/-- The instant `t` lies `ms` milliseconds after the Unix epoch. -/
def Time.IsMillisAfterEpoch (t : Time) (ms : Int) : Prop :=
  t.sec * 1000000000 + t.nsec = ms * 1000000 ∧ 0 ≤ t.nsec ∧ t.nsec < 1000000000

/-- The row `r` is the one the specification describes for the record `s`. -/
def IsBatchRowOf (s : JobSummary) (r : BatchRow) : Prop :=
  r.externalId = s.JobId ∧ r.name = s.JobName ∧ r.status = s.Status ∧
  r.statusReason = s.StatusReason ∧
  r.created.IsMillisAfterEpoch s.CreatedAt ∧ r.started.IsMillisAfterEpoch s.StartedAt ∧
  r.stopped.IsMillisAfterEpoch s.StoppedAt ∧
  IsLeftmostUuid s.JobName r.id

/-- Every database call of the load except possibly `Close` reports success. -/
def TxOutcome.AllSucceed (o : TxOutcome) : Prop :=
  o.beginErr = none ∧ o.prepareErr = none ∧ o.execErr = none ∧ o.commitErr = none

/-- The store works: `Begin`, `Prepare` and `Commit` report success. -/
def TxOutcome.StoreHealthy (o : TxOutcome) : Prop :=
  o.beginErr = none ∧ o.prepareErr = none ∧ o.commitErr = none

/-- The rows of the records of `l` whose insert statement succeeds, in input order; the first
record of `l` is record number `i`. -/
def insertedBatchRows (env : Nat → TxOutcome) (i : Nat) (l : List JobSummary) : List BatchRow :=
  ((l.enumFrom i).filter (fun p => (env p.1).execErr = none)).map
    (fun p => batchRow (FindString uuidMatchingMachine p.2.JobName) p.2)

/-! ## time.Parse with the layout `2006-01-02T15:04:05.999Z`

The layout splits into the chunks `2006` (stdLongYear), `-`, `01` (stdZeroMonth), `-`, `02`
(stdZeroDay), `T`, `15` (stdHour), `:`, `04` (stdZeroMinute), `:`, `05` (stdZeroSecond), `.999`
(stdFracSecond9) and the literal text `Z`. `Parse` below is `time.Parse` on that layout, chunk
by chunk; `none` is a non-nil error. -/

/-- Whether the rune is an ASCII digit. -/
def isDigitChar (c : Char) : Bool := decide ('0' ≤ c) && decide (c ≤ '9')

/-- The helper `isDigit(s, i)`. -/
def isDigit (s : Str) (i : Nat) : Bool :=
  match s[i]? with
  | some c => isDigitChar c
  | none => false

/-- The value of a digit, `c - '0'`. -/
def digitVal (c : Char) : Nat := c.toNat - '0'.toNat

/-- The helper `commaOrPeriod`. -/
def commaOrPeriod (c : Char) : Bool := c = '.' || c = ','

/-- The helper `getnum`: one or two digits, exactly two when `fixed`. -/
def getnum (s : Str) (fixed : Bool) : Option (Nat × Str) :=
  match s with
  | [] => none
  | c :: rest =>
    if !isDigitChar c then none
    else
      match rest with
      | [] => if fixed then none else some (digitVal c, rest)
      | d :: rest' =>
        if !isDigitChar d then
          if fixed then none else some (digitVal c, rest)
        else some (digitVal c * 10 + digitVal d, rest')

/-- The helper `leadingInt`, started with the value `x` read so far: the digits at the start
of the text and what follows them. The texts read here have at most nine digits, far from
the overflow guard of the original. -/
def leadingInt (x : Nat) : Str → Nat × Str
  | [] => (x, [])
  | c :: rest => if isDigitChar c then leadingInt (x * 10 + digitVal c) rest else (x, c :: rest)

/-- The helper `atoi`. -/
def atoi (s : Str) : Option Int :=
  let neg := decide (s.head? = some '-')
  let s' := if s.head? = some '-' ∨ s.head? = some '+' then s.drop 1 else s
  let r := leadingInt 0 s'
  if r.2 ≠ [] then none
  else some (if neg then -(r.1 : Int) else (r.1 : Int))

/-- The helper `skip` for a prefix without spaces (no prefix of this layout holds one). -/
def skip : Str → Str → Option Str
  | value, [] => some value
  | [], _ :: _ => none
  | v :: value, p :: pre => if v = p then skip value pre else none

/-- The helper `parseNanoseconds` (Go 1.20 and later: digits after the ninth are dropped). -/
def parseNanoseconds (value : Str) (nbytes : Nat) : Option Int :=
  match value with
  | [] => none
  | c :: _ =>
    if !commaOrPeriod c then none
    else
      let value' := if nbytes > 10 then value.take 10 else value
      let nbytes' := if nbytes > 10 then 10 else nbytes
      match atoi ((value'.take nbytes').drop 1) with
      | none => none
      | some ns => if ns < 0 then none else some (ns * 10 ^ (10 - nbytes'))

/-- The number of digits at the start of the text. -/
def countDigits : Str → Nat
  | [] => 0
  | c :: rest => if isDigitChar c then countDigits rest + 1 else 0

/-- The case `stdFracSecond9` of `Parse`: the nanoseconds and the rest of the value. The
fraction may be left out; when present it has as many digits as the value holds. -/
def fracSecond9 (value : Str) : Option (Int × Str) :=
  match value with
  | c :: d :: _ =>
    if commaOrPeriod c && isDigitChar d then
      let i := countDigits (value.drop 1)
      match parseNanoseconds value (1 + i) with
      | none => none
      | some ns => some (ns, value.drop (1 + i))
    else some (0, value)
  | _ => some (0, value)

/-- The helper `isLeap`. -/
def isLeap (year : Int) : Bool := year % 4 = 0 && (year % 100 ≠ 0 || year % 400 = 0)

/-- The table `daysBefore`. -/
def daysBefore : List Nat := [0, 31, 59, 90, 120, 151, 181, 212, 243, 273, 304, 334, 365]

/-- The helper `daysIn`. -/
def daysIn (month : Nat) (year : Int) : Nat :=
  if month = 2 ∧ isLeap year = true then 29
  else daysBefore.getD month 0 - daysBefore.getD (month - 1) 0

/-- The helper `daysSinceEpoch`; the absolute epoch is the year -292277022399. -/
def daysSinceEpoch (year : Int) : Int :=
  let y := year + 292277022399
  let n400 := y / 400
  let y := y - 400 * n400
  let d := 146097 * n400
  let n100 := y / 100
  let y := y - 100 * n100
  let d := d + 36524 * n100
  let n4 := y / 4
  let y := y - 4 * n4
  let d := d + 1461 * n4
  d + 365 * y

/-- The function `time.Date` in UTC, on fields that are already in range (which `Parse` has
checked before it calls `Date`): seconds since the absolute epoch, moved to the Unix epoch. -/
def Date (year : Int) (month day hour min sec : Nat) (nsec : Int) : Time :=
  let d := daysSinceEpoch year + daysBefore.getD (month - 1) 0 +
    (if isLeap year = true ∧ month ≥ 3 then 1 else 0) + ((day : Int) - 1)
  let abs := d * 86400 + (hour * 3600 + min * 60 + sec : Nat)
  ⟨abs - 9223371966579724800 - 62135596800, nsec, Location.UTC⟩

/-- The function `time.Parse` on the layout `2006-01-02T15:04:05.999Z`. -/
def Parse (value : Str) : Option Time :=
  -- stdLongYear
  if value.length < 4 ∨ isDigit value 0 = false then none else
  match atoi (value.take 4) with
  | none => none
  | some year =>
  -- stdZeroMonth
  match skip (value.drop 4) ['-'] with
  | none => none
  | some value =>
  match getnum value true with
  | none => none
  | some (month, value) =>
  if month = 0 ∨ 12 < month then none else
  -- stdZeroDay
  match skip value ['-'] with
  | none => none
  | some value =>
  match getnum value true with
  | none => none
  | some (day, value) =>
  -- stdHour
  match skip value ['T'] with
  | none => none
  | some value =>
  match getnum value false with
  | none => none
  | some (hour, value) =>
  if 24 ≤ hour then none else
  -- stdZeroMinute
  match skip value [':'] with
  | none => none
  | some value =>
  match getnum value true with
  | none => none
  | some (min, value) =>
  if 60 ≤ min then none else
  -- stdZeroSecond
  match skip value [':'] with
  | none => none
  | some value =>
  match getnum value true with
  | none => none
  | some (sec, value) =>
  if 60 ≤ sec then none else
  -- stdFracSecond9
  match fracSecond9 value with
  | none => none
  | some (nsec, value) =>
  -- the literal `Z`, then the end of the value
  match skip value ['Z'] with
  | none => none
  | some value =>
  if value ≠ [] then none else
  -- the day of the month
  if day < 1 ∨ day > daysIn month year then none else
  some (Date year month day hour min sec nsec)

/-! ## extractor.go: logs -/

/-- The constant `fieldDate`. -/
def fieldDate : Str := "date".toList

/-- The constant `fieldService`. -/
def fieldService : Str := "Service".toList

/-- The constant `fieldThread`. -/
def fieldThread : Str := "@thread_name".toList

/-- The constant `fieldMessage`. -/
def fieldMessage : Str := "message".toList

/-- A `map[string]int`, as the list of its assignments, the latest first. -/
abbrev Header := List (Str × Nat)

/-- The two-valued read `v, ok := header[k]`: the latest assignment to `k`, if any. -/
def Header.find? : Header → Str → Option Nat
  | [], _ => none
  | (k', v) :: h, k => if k' = k then some v else Header.find? h k

/-- The read `header[k]`: the zero value when the key is absent. -/
def Header.index (h : Header) (k : Str) : Nat := (h.find? k).getD 0

/-- The loop `for j, h := range x { header[h] = j }`, from position `j` on. -/
def fillHeader : Nat → List Str → Header → Header
  | _, [], header => header
  | j, h :: x, header => fillHeader (j + 1) x ((h, j) :: header)

/-- The function `makeHeader`: the filled map, or the end of the process. -/
def makeHeader (x : List Str) (header : Header) : Except Fatal Header :=
  let header := fillHeader 0 x header
  if (header.find? fieldDate).isNone then Except.error (Fatal.fieldNotFound fieldDate)
  else if (header.find? fieldService).isNone then Except.error (Fatal.fieldNotFound fieldService)
  else if (header.find? fieldThread).isNone then Except.error (Fatal.fieldNotFound fieldThread)
  else if (header.find? fieldMessage).isNone then Except.error (Fatal.fieldNotFound fieldMessage)
  else Except.ok header

/-- The method `readLogRecordIntoDB`. `Except.error` is the end of the process. -/
def readLogRecordIntoDB (o : TxOutcome) (db : DB) (id : Str) (ts : Time) (service : Str)
    (thread : Str) : Except Fatal (DB × Frame) :=
  match MustCheck o.beginErr with
  | Except.error why => Except.error why
  | Except.ok _ =>
    match MustCheck o.prepareErr with
    | Except.error why => Except.error why
    | Except.ok _ =>
      let stmt : TxStmt := ⟨o.closeErr, false, 0⟩
      match o.execErr with
      | some e =>
        Except.ok (db, returning
          (some (Error.wrapped "failed to retrieve last inserted book" e)) (some e) stmt)
      | none =>
        match MustCheck o.commitErr with
        | Except.error why => Except.error why
        | Except.ok _ =>
          Except.ok ({ db with log := db.log ++ [⟨id, ts, service, thread⟩] },
            returning none none stmt.afterCommit)

/-- The loop of `IngestLogRecords` from row number `i` of the table on (row 0 is the header),
up to the end of the loop. `env j` is what the database reports while data row `j` (counted
from 0) is loaded. -/
def ingestLogLoop (env : Nat → TxOutcome) :
    Nat → Header → DB → List LogEvent → List (List Str) → Run
  | _, _, db, logs, [] => ⟨db, logs, Exit.returned none⟩
  | i, header, db, logs, x :: rest =>
    if i = 0 then
      match makeHeader x header with
      | Except.error why => ⟨db, logs ++ [LogEvent.fatal why], Exit.halted⟩
      | Except.ok header' => ingestLogLoop env (i + 1) header' db logs rest
    else
      match x[header.index fieldDate]? with
      | none => ⟨db, logs, Exit.panicked⟩
      | some date =>
        match Parse date with
        | none => ⟨db, logs ++ [LogEvent.fatal (Fatal.timestamp (i + 1) x)], Exit.halted⟩
        | some ts =>
          match x[header.index fieldMessage]? with
          | none => ⟨db, logs, Exit.panicked⟩
          | some message =>
            let id := FindString uuidMatchingMachine message
            match x[header.index fieldService]? with
            | none => ⟨db, logs, Exit.panicked⟩
            | some service =>
              match x[header.index fieldThread]? with
              | none => ⟨db, logs, Exit.panicked⟩
              | some thread =>
                match readLogRecordIntoDB (env (i - 1)) db id ts service thread with
                | Except.error why => ⟨db, logs ++ [LogEvent.fatal why], Exit.halted⟩
                | Except.ok (db', fr) =>
                  match fr.ret with
                  | some errLoading =>
                    ingestLogLoop env (i + 1) header db'
                      (logs ++ [LogEvent.recordFailed errLoading]) rest
                  | none => ingestLogLoop env (i + 1) header db' logs rest

/-- What `reader.ReadAll` gives: an error, or the records; `encoding/csv` gives every record
as many fields as the first one has. -/
inductive CsvInput where
  | unreadable (e : Error)
  | records (all : List (List Str))
deriving DecidableEq, Repr

/-- The method `IngestLogRecords`. -/
def IngestLogRecords (env : Nat → TxOutcome) (db : DB) (f : CsvInput) : Run :=
  match f with
  | CsvInput.unreadable e => ⟨db, [LogEvent.fatal (Fatal.csvRead e)], Exit.halted⟩
  | CsvInput.records all =>
    let r := ingestLogLoop env 0 [] db [] all
    match r.exit with
    | Exit.returned _ =>
      ⟨r.db, r.logs ++ [LogEvent.readLogRecords ((all.length : Int) - 1)], Exit.returned none⟩
    | _ => r

/-- The count that a run reports in its line `Read %d log records`, if it writes that line. -/
def Run.reportedLogCount (r : Run) : Option Int :=
  r.logs.findSome? (fun ev =>
    match ev with
    | LogEvent.readLogRecords n => some n
    | _ => none)

/-- The position that the header row gives to the column `name`: it carries the name there,
and at no later position. -/
def IsColumn (hdr : List Str) (name : Str) (j : Nat) : Prop :=
  hdr[j]? = some name ∧ name ∉ hdr.drop (j + 1)

/-- Every rune of the text is an ASCII digit. -/
def AllDigits (s : Str) : Prop := ∀ c ∈ s, isDigitChar c = true

/-- The form `YYYY-MM-DDTHH:MM:SS.sssZ`: four-digit year, two-digit month, day, hour, minute
and second, a period, exactly three digits, the letter `Z`. -/
def IsStrictDateForm (v : Str) : Prop :=
  ∃ y mo d h mi s f : Str,
    v = y ++ '-' :: (mo ++ '-' :: (d ++ 'T' :: (h ++ ':' :: (mi ++ ':' :: (s ++ '.' ::
      (f ++ ['Z'])))))) ∧
    y.length = 4 ∧ mo.length = 2 ∧ d.length = 2 ∧ h.length = 2 ∧ mi.length = 2 ∧
    s.length = 2 ∧ f.length = 3 ∧
    AllDigits y ∧ AllDigits mo ∧ AllDigits d ∧ AllDigits h ∧ AllDigits mi ∧ AllDigits s ∧
    AllDigits f

/-- The form `YYYY-MM-DDTH:MM:SSZ` with a one- or two-digit hour and, between the seconds and
the `Z`, nothing or a period or comma followed by one or more digits. -/
def IsLooseDateForm (v : Str) : Prop :=
  ∃ y mo d h mi s frac : Str,
    v = y ++ '-' :: (mo ++ '-' :: (d ++ 'T' :: (h ++ ':' :: (mi ++ ':' :: (s ++
      (frac ++ ['Z'])))))) ∧
    y.length = 4 ∧ mo.length = 2 ∧ d.length = 2 ∧ (h.length = 1 ∨ h.length = 2) ∧
    mi.length = 2 ∧ s.length = 2 ∧
    AllDigits y ∧ AllDigits mo ∧ AllDigits d ∧ AllDigits h ∧ AllDigits mi ∧ AllDigits s ∧
    (frac = [] ∨ ∃ sep f, frac = sep :: f ∧ (sep = '.' ∨ sep = ',') ∧ f ≠ [] ∧ AllDigits f)

/-- The row of `log` that the specification describes for the data row `x`, with the four columns at
the positions `jd`, `js`, `jt` and `jm`. -/
def IsLogRowOf (jd js jt jm : Nat) (x : List Str) (r : LogRow) : Prop :=
  x[js]? = some r.service ∧ x[jt]? = some r.thread ∧
  (∃ date, x[jd]? = some date ∧ Parse date = some r.ts) ∧
  (∃ message, x[jm]? = some message ∧
    ((ContainsUuidShape message ∧ IsLeftmostUuid message r.id) ∨
     (¬ ContainsUuidShape message ∧ r.id = [])))

/-- The row of `log` made from a data row, when its four fields exist and its date parses. -/
def logRowOf (jd js jt jm : Nat) (x : List Str) : Option LogRow :=
  match x[jd]?, x[jm]?, x[js]?, x[jt]? with
  | some date, some message, some service, some thread =>
    match Parse date with
    | some ts => some ⟨FindString uuidMatchingMachine message, ts, service, thread⟩
    | none => none
  | _, _, _, _ => none

/-- The rows of the data rows of `rows` whose insert statement succeeds, in input order; the
first row of `rows` is data row number `i`. -/
def insertedLogRows (env : Nat → TxOutcome) (jd js jt jm : Nat) (i : Nat)
    (rows : List (List Str)) : List LogRow :=
  ((rows.enumFrom i).filter (fun p => (env p.1).execErr = none)).filterMap
    (fun p => logRowOf jd js jt jm p.2)

/-- The columns of a row moved around: position `j` of the result holds what position `p[j]`
held. -/
def permute (p : List Nat) (x : List Str) : List Str := p.map (fun j => (x[j]?).getD [])

/-- The header of the log example of the specification. -/
def exampleHeader : List Str :=
  ["date".toList, "Service".toList, "@thread_name".toList, "message".toList]

/-- The data row of the log example of the specification. -/
def exampleLogLine : List Str :=
  ["2021-12-11T06:25:15.107Z".toList, "worker".toList, "thread-1".toList,
   "Submitting job [c86a5ae7-3d84-405e-be0d-5936bbb18ab3] to Batch".toList]

/-- The row stored for `exampleLogLine`: December 11 2021 06:25:15.107 UTC. -/
def exampleLogRow : LogRow :=
  ⟨"c86a5ae7-3d84-405e-be0d-5936bbb18ab3".toList, ⟨1639203915, 107000000, Location.UTC⟩,
    "worker".toList, "thread-1".toList⟩

/-- A data row whose date has no fractional second and whose message has no pattern. -/
def plainLogLine : List Str :=
  ["2021-12-11T06:25:15Z".toList, "worker".toList, "thread-2".toList, "started".toList]

/-- A header row without the thread column. -/
def shortHeader : List Str := ["date".toList, "Service".toList, "message".toList]

/-- A data row for `shortHeader`. -/
def shortLogLine : List Str :=
  ["2021-12-11T06:25:15.107Z".toList, "worker".toList, "started".toList]

/-- The row stored for `plainLogLine`. -/
def plainLogRow : LogRow :=
  ⟨[], ⟨1639203915, 0, Location.UTC⟩, "worker".toList, "thread-2".toList⟩

/-- A data row whose date is not a timestamp. -/
def brokenLogLine : List Str :=
  ["yesterday".toList, "worker".toList, "thread-3".toList, "stopped".toList]

/-- How often the header row carries the column name. -/
def occurrences (name : Str) (hdr : List Str) : Nat :=
  hdr.countP (fun c => decide (c = name))

/-- The four fields that the loop reads from the row `x` under the header map `h` are those
it reads from `x'` under `h'`. -/
def SameFields (h h' : Header) (x x' : List Str) : Prop :=
  x[h.index fieldDate]? = x'[h'.index fieldDate]? ∧
  x[h.index fieldMessage]? = x'[h'.index fieldMessage]? ∧
  x[h.index fieldService]? = x'[h'.index fieldService]? ∧
  x[h.index fieldThread]? = x'[h'.index fieldThread]?

/-! ## Concrete inputs -/

/-- Every database call reports success. -/
def okTx : TxOutcome := ⟨none, none, none, none, none⟩

/-- The insert statement fails, the rest of the store works. -/
def execFailsTx : TxOutcome := ⟨none, none, some (Error.lib 19), none, none⟩

/-- Every call of the program succeeds; the driver reports an error when the prepared statement
is released. -/
def closeFailsTx : TxOutcome := ⟨none, none, none, none, some (Error.lib 5)⟩

/-- The insert statement fails, and so does the release of the prepared statement. -/
def execAndCloseFailTx : TxOutcome :=
  ⟨none, none, some (Error.lib 19), none, some (Error.lib 5)⟩

/-- The store fails the insert of record 0 only. -/
def firstInsertFails : Nat → TxOutcome := fun i => if i = 0 then execFailsTx else okTx

/-- Both tables empty, as left by `NewExtractor`. -/
def emptyDB : DB := ⟨[], []⟩

/-- The job of the summary example of the specification. -/
def exampleJob : JobSummary :=
  ⟨"j1".toList, "run-c86a5ae7-3d84-405e-be0d-5936bbb18ab3".toList, 1000, "SUCCEEDED".toList,
    [], 2000, 3000, 0⟩

/-- A job whose name carries no correlation pattern. -/
def unnamedJob : JobSummary :=
  ⟨"j2".toList, "nightly-run".toList, 4000, "FAILED".toList, [], 5000, 6000, 1⟩

/-- The row stored for `exampleJob`. -/
def exampleBatchRow : BatchRow :=
  ⟨"j1".toList, "c86a5ae7-3d84-405e-be0d-5936bbb18ab3".toList,
    "run-c86a5ae7-3d84-405e-be0d-5936bbb18ab3".toList,
    ⟨1, 0, Location.Local⟩, ⟨2, 0, Location.Local⟩, ⟨3, 0, Location.Local⟩,
    "SUCCEEDED".toList, []⟩

/-! ## The matcher computes the language -/

theorem matchRep_eq_some (k : CharClass) (n : Nat) (s m rest : Str) :
    matchRep k n s = some (m, rest) ↔
      s = m ++ rest ∧ m.length = n ∧ ∀ x ∈ m, k.accepts x = true := by
  induction n generalizing s m rest with
  | zero =>
    simp only [matchRep, Option.some.injEq, Prod.mk.injEq]
    constructor
    · rintro ⟨rfl, rfl⟩; simp
    · rintro ⟨h, hl, -⟩
      have : m = [] := List.length_eq_zero.mp hl
      subst this; simp [h]
  | succ n ih =>
    cases s with
    | nil =>
      simp only [matchRep]
      constructor
      · intro h; cases h
      · rintro ⟨h, hl, -⟩
        cases m with
        | nil => simp at hl
        | cons x m => simp at h
    | cons c s =>
      simp only [matchRep]
      by_cases hc : k.accepts c = true
      · simp only [hc, if_true]
        constructor
        · intro h
          cases hr : matchRep k n s with
          | none => simp [hr] at h
          | some p =>
            obtain ⟨m₀, r₀⟩ := p
            simp only [hr, Option.some.injEq, Prod.mk.injEq] at h
            obtain ⟨rfl, rfl⟩ := h
            obtain ⟨h1, h2, h3⟩ := (ih s m₀ r₀).mp hr
            refine ⟨by simp [h1], by simp [h2], ?_⟩
            intro x hx
            rcases List.mem_cons.mp hx with rfl | hx
            · exact hc
            · exact h3 x hx
        · rintro ⟨h, hl, ha⟩
          cases m with
          | nil => simp at hl
          | cons x m =>
            simp only [List.cons_append, List.cons.injEq] at h
            obtain ⟨rfl, rfl⟩ := h
            have hr : matchRep k n (m ++ rest) = some (m, rest) :=
              (ih (m ++ rest) m rest).mpr
                ⟨rfl, by simpa using hl, fun x hx => ha x (List.mem_cons_of_mem _ hx)⟩
            simp [hr]
      · simp only [hc, if_false]
        constructor
        · intro h; cases h
        · rintro ⟨h, hl, ha⟩
          cases m with
          | nil => simp at hl
          | cons x m =>
            simp only [List.cons_append, List.cons.injEq] at h
            obtain ⟨rfl, -⟩ := h
            exact absurd (ha c (List.mem_cons_self _ _)) hc

theorem matchPrefix_eq_some (re : Regexp) (s m rest : Str) :
    matchPrefix re s = some (m, rest) ↔ s = m ++ rest ∧ Denotes re m := by
  induction re generalizing s m rest with
  | nil =>
    simp only [matchPrefix, Denotes, Option.some.injEq, Prod.mk.injEq]
    constructor
    · rintro ⟨rfl, rfl⟩; simp
    · rintro ⟨h, rfl⟩; simp [h]
  | cons nd re ih =>
    cases nd with
    | lit c =>
      cases s with
      | nil =>
        simp only [matchPrefix, Denotes]
        constructor
        · intro h; cases h
        · rintro ⟨h, m', rfl, -⟩; simp at h
      | cons d s =>
        simp only [matchPrefix, Denotes]
        by_cases hd : d = c
        · subst hd
          simp only [if_true]
          constructor
          · intro h
            cases hr : matchPrefix re s with
            | none => simp [hr] at h
            | some p =>
              obtain ⟨m₀, r₀⟩ := p
              simp only [hr, Option.some.injEq, Prod.mk.injEq] at h
              obtain ⟨rfl, rfl⟩ := h
              obtain ⟨h1, h2⟩ := (ih s m₀ r₀).mp hr
              exact ⟨by simp [h1], m₀, rfl, h2⟩
          · rintro ⟨h, m', rfl, hm'⟩
            simp only [List.cons_append, List.cons.injEq, true_and] at h
            subst h
            have hr := (ih (m' ++ rest) m' rest).mpr ⟨rfl, hm'⟩
            simp [hr]
        · simp only [hd, if_false]
          constructor
          · intro h; cases h
          · rintro ⟨h, m', rfl, -⟩
            simp only [List.cons_append, List.cons.injEq] at h
            exact absurd h.1 hd
    | rep k n =>
      simp only [matchPrefix, Denotes]
      constructor
      · intro h
        cases hr : matchRep k n s with
        | none => simp [hr] at h
        | some p =>
          obtain ⟨a, s'⟩ := p
          simp only [hr] at h
          cases hr2 : matchPrefix re s' with
          | none => simp [hr2] at h
          | some q =>
            obtain ⟨m₂, r₂⟩ := q
            simp only [hr2, Option.some.injEq, Prod.mk.injEq] at h
            obtain ⟨rfl, rfl⟩ := h
            obtain ⟨h1, h2, h3⟩ := (matchRep_eq_some k n s a s').mp hr
            obtain ⟨h4, h5⟩ := (ih s' m₂ r₂).mp hr2
            exact ⟨by simp [h1, h4], a, m₂, rfl, h2, h3, h5⟩
      · rintro ⟨h, a, m', rfl, hl, ha, hm'⟩
        have hr : matchRep k n s = some (a, m' ++ rest) :=
          (matchRep_eq_some k n s a (m' ++ rest)).mpr ⟨by simp [h], hl, ha⟩
        have hr2 := (ih (m' ++ rest) m' rest).mpr ⟨rfl, hm'⟩
        simp [hr, hr2]

theorem Denotes_length (re : Regexp) (m : Str) (h : Denotes re m) : m.length = width re := by
  induction re generalizing m with
  | nil => simp only [Denotes] at h; simp [h, width]
  | cons nd re ih =>
    cases nd with
    | lit c =>
      obtain ⟨m', rfl, hm'⟩ := h
      simp [width, ih m' hm']; omega
    | rep k n =>
      obtain ⟨a, m', rfl, hl, -, hm'⟩ := h
      simp [width, ih m' hm', hl]

theorem notHyphen_accepts (x : Char) : notHyphen.accepts x = true ↔ x ≠ '-' := by
  simp [notHyphen, CharClass.accepts]

theorem notHyphen_all (a : Str) : (∀ x ∈ a, notHyphen.accepts x = true) ↔ '-' ∉ a := by
  simp only [notHyphen_accepts]
  constructor
  · intro h hm; exact h _ hm rfl
  · intro h x hx hxe; exact h (hxe ▸ hx)

theorem Denotes_uuid (m : Str) : Denotes uuidMatchingMachine m ↔ IsUuidShape m := by
  simp only [uuidMatchingMachine, Denotes, IsUuidShape, notHyphen_all]
  constructor
  · rintro ⟨a, _, rfl, ha, na, _, rfl, b, _, rfl, hb, nb, _, rfl, c, _, rfl, hc, nc, _, rfl,
      d, _, rfl, hd, nd, _, rfl, e, _, rfl, he, ne, rfl⟩
    exact ⟨a, b, c, d, e, by simp, ha, hb, hc, hd, he, na, nb, nc, nd, ne⟩
  · rintro ⟨a, b, c, d, e, rfl, ha, hb, hc, hd, he, na, nb, nc, nd, ne⟩
    exact ⟨a, _, rfl, ha, na, _, rfl, b, _, rfl, hb, nb, _, rfl, c, _, rfl, hc, nc, _, rfl,
      d, _, rfl, hd, nd, _, rfl, e, [], by simp, he, ne, rfl⟩

theorem matchPrefix_none_head (re : Regexp) (s : Str) (h : matchPrefix re s = none)
    (m' post' : Str) (hs : s = [] ++ m' ++ post') : ¬ Denotes re m' := by
  intro hd
  have := (matchPrefix_eq_some re s m' post').mpr ⟨by simpa using hs, hd⟩
  rw [h] at this
  cases this

theorem FindString_spec (re : Regexp) (s : Str) :
    (IsLeftmostIn re s (FindString re s)) ∨
    ((∀ pre' m' post' : Str, s = pre' ++ m' ++ post' → ¬ Denotes re m') ∧
      FindString re s = []) := by
  induction s with
  | nil =>
    simp only [FindString]
    cases hr : matchPrefix re [] with
    | some p =>
      obtain ⟨m, rest⟩ := p
      obtain ⟨h1, h2⟩ := (matchPrefix_eq_some re [] m rest).mp hr
      left
      exact ⟨[], rest, by simpa using h1, h2, fun _ _ _ _ _ => Nat.zero_le _⟩
    | none =>
      right
      refine ⟨?_, rfl⟩
      intro pre' m' post' hs
      have hp : pre' = [] := by
        cases pre' with
        | nil => rfl
        | cons x xs => simp at hs
      subst hp
      exact matchPrefix_none_head re [] hr m' post' hs
  | cons c s ih =>
    simp only [FindString]
    cases hr : matchPrefix re (c :: s) with
    | some p =>
      obtain ⟨m, rest⟩ := p
      obtain ⟨h1, h2⟩ := (matchPrefix_eq_some re (c :: s) m rest).mp hr
      left
      exact ⟨[], rest, by simpa using h1, h2, fun _ _ _ _ _ => Nat.zero_le _⟩
    | none =>
      simp only
      rcases ih with ⟨pre, post, hs, hd, hmin⟩ | ⟨hno, hnil⟩
      · left
        refine ⟨c :: pre, post, congrArg (List.cons c) hs, hd, ?_⟩
        intro pre' m' post' hs' hd'
        cases pre' with
        | nil => exact absurd hd' (matchPrefix_none_head re (c :: s) hr m' post' hs')
        | cons x xs =>
          simp only [List.cons_append, List.cons.injEq] at hs'
          have := hmin xs m' post' (by simpa using hs'.2) hd'
          simp only [List.length_cons]
          omega
      · right
        refine ⟨?_, hnil⟩
        intro pre' m' post' hs'
        cases pre' with
        | nil => exact matchPrefix_none_head re (c :: s) hr m' post' hs'
        | cons x xs =>
          simp only [List.cons_append, List.cons.injEq] at hs'
          exact hno xs m' post' (by simpa using hs'.2)

theorem IsLeftmostIn_unique (re : Regexp) (s m₁ m₂ : Str)
    (h₁ : IsLeftmostIn re s m₁) (h₂ : IsLeftmostIn re s m₂) : m₁ = m₂ := by
  obtain ⟨p₁, q₁, e₁, d₁, min₁⟩ := h₁
  obtain ⟨p₂, q₂, e₂, d₂, min₂⟩ := h₂
  have hp : p₁.length = p₂.length :=
    Nat.le_antisymm (min₁ p₂ m₂ q₂ e₂ d₂) (min₂ p₁ m₁ q₁ e₁ d₁)
  have hm : m₁.length = m₂.length := by
    rw [Denotes_length re m₁ d₁, Denotes_length re m₂ d₂]
  have e : p₁ ++ (m₁ ++ q₁) = p₂ ++ (m₂ ++ q₂) := by
    rw [← List.append_assoc, ← List.append_assoc, ← e₁, ← e₂]
  have e' := (List.append_inj e hp).2
  exact (List.append_inj e' hm).1

theorem IsLeftmostUuid_iff (s m : Str) : IsLeftmostUuid s m ↔ IsLeftmostIn uuidMatchingMachine s m := by
  simp only [IsLeftmostUuid, IsLeftmostIn, Denotes_uuid]

theorem IsUuidShape_ne_nil (m : Str) (h : IsUuidShape m) : m ≠ [] := by
  have := Denotes_length _ m ((Denotes_uuid m).mpr h)
  intro hm
  subst hm
  simp [uuidMatchingMachine, width] at this

/-- On a text that contains the shape, `FindString` returns its leftmost occurrence. -/
theorem FindString_leftmost (s : Str) (h : ContainsUuidShape s) :
    IsLeftmostUuid s (FindString uuidMatchingMachine s) := by
  rcases FindString_spec uuidMatchingMachine s with hl | ⟨hno, -⟩
  · exact (IsLeftmostUuid_iff _ _).mpr hl
  · obtain ⟨pre, m, post, hs, hm⟩ := h
    exact absurd ((Denotes_uuid m).mpr hm) (hno pre m post hs)

/-- The leftmost occurrence is unique, and it is what `FindString` returns. -/
theorem FindString_eq_of_leftmost (s m : Str) (h : IsLeftmostUuid s m) :
    FindString uuidMatchingMachine s = m := by
  have hc : ContainsUuidShape s := by
    obtain ⟨pre, post, hs, hm, -⟩ := h
    exact ⟨pre, m, post, hs, hm⟩
  exact IsLeftmostIn_unique uuidMatchingMachine s _ _
    ((IsLeftmostUuid_iff _ _).mp (FindString_leftmost s hc)) ((IsLeftmostUuid_iff _ _).mp h)

/-- `FindString` returns `""` exactly on the texts that do not contain the shape. -/
theorem FindString_eq_nil_iff (s : Str) :
    FindString uuidMatchingMachine s = [] ↔ ¬ ContainsUuidShape s := by
  constructor
  · intro h hc
    obtain ⟨pre, post, -, hm, -⟩ := FindString_leftmost s hc
    exact IsUuidShape_ne_nil _ hm h
  · intro h
    rcases FindString_spec uuidMatchingMachine s with ⟨pre, post, hs, hd, -⟩ | ⟨-, hnil⟩
    · exact absurd ⟨pre, _, post, hs, (Denotes_uuid _).mp hd⟩ h
    · exact hnil

/-! ## time.UnixMilli -/

theorem tdiv_cases (a b : Int) (hb : 0 < b) :
    (0 ≤ a ∧ a.tdiv b = a / b) ∨ (a < 0 ∧ a.tdiv b = -((-a) / b)) := by
  rcases lt_or_le a 0 with h | h
  · right
    refine ⟨h, ?_⟩
    have h1 : a = -(-a) := by omega
    have h2 : (-a).tdiv b = (-a) / b := Int.tdiv_eq_ediv (by omega) (by omega)
    rw [← h2, ← Int.neg_tdiv, ← h1]
  · left
    exact ⟨h, Int.tdiv_eq_ediv h (by omega)⟩

theorem UnixMilli_isMillis (ms : Int) : (UnixMilli ms).IsMillisAfterEpoch ms := by
  have hmod := Int.tmod_def ms 1000
  unfold UnixMilli Unix Time.IsMillisAfterEpoch
  generalize hr : Int.tmod ms 1000 = r at *
  generalize hq : Int.tdiv ms 1000 = q at *
  have hq' := tdiv_cases ms 1000 (by decide)
  rw [hq] at hq'
  have hn := tdiv_cases (r * 1000000) 1000000000 (by decide)
  generalize hn' : Int.tdiv (r * 1000000) 1000000000 = n at *
  simp only
  split_ifs <;> simp only <;> omega

/-! ## Loading one summary record -/

theorem DB.eta (db : DB) : (⟨db.batch, db.log⟩ : DB) = db := by
  cases db; rfl

/-- The three ways a per-record load of a summary can end. -/
theorem readBatchRecordIntoDB_cases (o : TxOutcome) (db : DB) (s : JobSummary) :
    (∃ why, readBatchRecordIntoDB o db s = Except.error why ∧
      (FindString uuidMatchingMachine s.JobName = [] ∨ ¬ o.StoreHealthy)) ∨
    (∃ e fr, readBatchRecordIntoDB o db s = Except.ok (db, fr) ∧ o.execErr = some e ∧
      fr.ret = some (Error.wrapped "failed to retrieve last inserted book" e) ∧
      FindString uuidMatchingMachine s.JobName ≠ []) ∨
    (∃ fr, readBatchRecordIntoDB o db s =
        Except.ok ({ db with batch := db.batch ++
          [batchRow (FindString uuidMatchingMachine s.JobName) s] }, fr) ∧
      o.execErr = none ∧ fr.ret = none ∧ FindString uuidMatchingMachine s.JobName ≠ []) := by
  obtain ⟨b, p, x, c, cl⟩ := o
  unfold readBatchRecordIntoDB MustCheck TxOutcome.StoreHealthy
  cases b with
  | some e => left; exact ⟨_, rfl, Or.inr (by simp)⟩
  | none =>
    cases p with
    | some e => left; exact ⟨_, rfl, Or.inr (by simp)⟩
    | none =>
      by_cases hm : FindString uuidMatchingMachine s.JobName = []
      · left; exact ⟨Fatal.noInternalId, by simp [hm], Or.inl hm⟩
      · cases x with
        | some e =>
          right; left
          refine ⟨e, returning (some (Error.wrapped "failed to retrieve last inserted book" e))
            (some e) ⟨cl, false, 0⟩, ?_, rfl, rfl, hm⟩
          simp [hm]
        | none =>
          cases c with
          | some e => left; exact ⟨Fatal.mustCheck e, by simp [hm], Or.inr (by simp)⟩
          | none =>
            right; right
            refine ⟨returning none none (TxStmt.afterCommit ⟨cl, false, 0⟩), ?_, rfl, rfl, hm⟩
            simp [hm]

theorem insertedBatchRows_nil (env : Nat → TxOutcome) (i : Nat) :
    insertedBatchRows env i [] = [] := rfl

theorem insertedBatchRows_cons (env : Nat → TxOutcome) (i : Nat) (s : JobSummary)
    (l : List JobSummary) :
    insertedBatchRows env i (s :: l) =
      (if (env i).execErr = none then
        [batchRow (FindString uuidMatchingMachine s.JobName) s] else []) ++
        insertedBatchRows env (i + 1) l := by
  unfold insertedBatchRows
  by_cases h : (env i).execErr = none
  · simp [List.enumFrom_cons, List.filter_cons, h]
  · simp [List.enumFrom_cons, List.filter_cons, h]

/-- A run of the loop over records that all carry the pattern, with a working store: every
record is visited, and the rows of the successful inserts are appended. -/
theorem ingestBatchLoop_append (env : Nat → TxOutcome) (l₁ rest : List JobSummary) :
    ∀ (i : Nat) (db : DB) (logs : List LogEvent),
      (∀ s ∈ l₁, ContainsUuidShape s.JobName) →
      (∀ j, j < l₁.length → (env (i + j)).StoreHealthy) →
      ∃ logs', ingestBatchLoop env i db logs (l₁ ++ rest) =
        ingestBatchLoop env (i + l₁.length)
          ⟨db.batch ++ insertedBatchRows env i l₁, db.log⟩ logs' rest := by
  induction l₁ with
  | nil =>
    intro i db logs _ _
    exact ⟨logs, by simp [insertedBatchRows_nil]⟩
  | cons s l₁ ih =>
    intro i db logs hpat hst
    have hs : FindString uuidMatchingMachine s.JobName ≠ [] := by
      rw [Ne, FindString_eq_nil_iff]
      exact not_not.mpr (hpat s (List.mem_cons_self _ _))
    have hh : (env i).StoreHealthy := by simpa using hst 0 (by simp)
    have hpat' : ∀ x ∈ l₁, ContainsUuidShape x.JobName :=
      fun x hx => hpat x (List.mem_cons_of_mem _ hx)
    have hst' : ∀ j, j < l₁.length → (env (i + 1 + j)).StoreHealthy := by
      intro j hj
      have := hst (j + 1) (by simpa using hj)
      rwa [show i + (j + 1) = i + 1 + j by omega] at this
    rcases readBatchRecordIntoDB_cases (env i) db s with
      ⟨why, -, h | h⟩ | ⟨e, fr, hr, hx, hret, -⟩ | ⟨fr, hr, hx, hret, -⟩
    · exact absurd h hs
    · exact absurd hh h
    · obtain ⟨logs', hl⟩ := ih (i + 1) db (logs ++ [LogEvent.recordFailed
        (Error.wrapped "failed to retrieve last inserted book" e)]) hpat' hst'
      refine ⟨logs', ?_⟩
      have e1 : i + (l₁.length + 1) = i + 1 + l₁.length := by omega
      simp only [List.cons_append, ingestBatchLoop, hr, hret, insertedBatchRows_cons, hx,
        List.length_cons, e1]
      rw [List.append_eq, hl]
      simp
    · obtain ⟨logs', hl⟩ := ih (i + 1)
        { db with batch := db.batch ++
          [batchRow (FindString uuidMatchingMachine s.JobName) s] } logs hpat' hst'
      refine ⟨logs', ?_⟩
      have e1 : i + (l₁.length + 1) = i + 1 + l₁.length := by omega
      simp only [List.cons_append, ingestBatchLoop, hr, hret, insertedBatchRows_cons, hx,
        List.length_cons, e1]
      rw [List.append_eq, hl]
      simp

/-- Rows are only ever added with a non-empty correlation id. -/
theorem ingestBatchLoop_ids (env : Nat → TxOutcome) (l : List JobSummary) :
    ∀ (i : Nat) (db : DB) (logs : List LogEvent),
      ∀ row ∈ (ingestBatchLoop env i db logs l).db.batch, row ∈ db.batch ∨ row.id ≠ [] := by
  induction l with
  | nil => intro i db logs row hrow; left; simpa [ingestBatchLoop] using hrow
  | cons s l ih =>
    intro i db logs row hrow
    rcases readBatchRecordIntoDB_cases (env i) db s with
      ⟨why, hr, -⟩ | ⟨e, fr, hr, -, hret, -⟩ | ⟨fr, hr, -, hret, hne⟩
    · left; simpa [ingestBatchLoop, hr] using hrow
    · simp only [ingestBatchLoop, hr, hret] at hrow
      exact ih _ _ _ row hrow
    · simp only [ingestBatchLoop, hr, hret] at hrow
      rcases ih _ _ _ row hrow with h | h
      · simp only [List.mem_append, List.mem_singleton] at h
        rcases h with h | h
        · exact Or.inl h
        · right; rw [h]; exact hne
      · exact Or.inr h

theorem ContainsUuidShape_iff (s : Str) :
    ContainsUuidShape s ↔ FindString uuidMatchingMachine s ≠ [] := by
  rw [Ne, FindString_eq_nil_iff, not_not]

/-- The loop over summary records: it stops at the first record `j` whose name does not carry
the pattern or for which the store fails, or visits every record; the rows of the records
before `j` whose insert succeeded are appended to `batch`. -/
theorem ingestBatchLoop_stops (env : Nat → TxOutcome) (l : List JobSummary) :
    ∀ (i : Nat) (db : DB) (logs : List LogEvent),
      ∃ j, j ≤ l.length ∧
        (ingestBatchLoop env i db logs l).db =
          ⟨db.batch ++ insertedBatchRows env i (l.take j), db.log⟩ ∧
        (∀ s ∈ l.take j, ContainsUuidShape s.JobName) ∧
        ((j = l.length ∧ (ingestBatchLoop env i db logs l).exit = Exit.returned none) ∨
         ((ingestBatchLoop env i db logs l).exit = Exit.halted ∧
            ∃ s, l[j]? = some s ∧
              (¬ ContainsUuidShape s.JobName ∨ ¬ (env (i + j)).StoreHealthy))) := by
  induction l with
  | nil =>
    intro i db logs
    exact ⟨0, Nat.le_refl _, by simp [ingestBatchLoop, insertedBatchRows_nil, DB.eta],
      by simp, Or.inl ⟨rfl, rfl⟩⟩
  | cons s l ih =>
    intro i db logs
    have hstep : ∀ (db' : DB) (logs' : List LogEvent),
        db'.log = db.log →
        db'.batch = db.batch ++ (if (env i).execErr = none then
          [batchRow (FindString uuidMatchingMachine s.JobName) s] else []) →
        FindString uuidMatchingMachine s.JobName ≠ [] →
        ∃ j, j ≤ (s :: l).length ∧
          (ingestBatchLoop env (i + 1) db' logs' l).db =
            ⟨db.batch ++ insertedBatchRows env i ((s :: l).take j), db.log⟩ ∧
          (∀ x ∈ (s :: l).take j, ContainsUuidShape x.JobName) ∧
          ((j = (s :: l).length ∧
              (ingestBatchLoop env (i + 1) db' logs' l).exit = Exit.returned none) ∨
           ((ingestBatchLoop env (i + 1) db' logs' l).exit = Exit.halted ∧
              ∃ x, (s :: l)[j]? = some x ∧
                (¬ ContainsUuidShape x.JobName ∨ ¬ (env (i + j)).StoreHealthy))) := by
      intro db' logs' hlg hb hne
      obtain ⟨j, hj, hdb, hall, hex⟩ := ih (i + 1) db' logs'
      refine ⟨j + 1, by simpa using hj, ?_, ?_, ?_⟩
      · rw [hdb, hb, hlg, List.take_succ_cons, insertedBatchRows_cons]
        simp
      · intro y hy
        rw [List.take_succ_cons] at hy
        rcases List.mem_cons.mp hy with rfl | hy
        · exact (ContainsUuidShape_iff _).mpr hne
        · exact hall y hy
      · rcases hex with ⟨e1, e2⟩ | ⟨e1, y, e2, e3⟩
        · exact Or.inl ⟨by simp [e1], e2⟩
        · refine Or.inr ⟨e1, y, by simpa using e2, ?_⟩
          rwa [show i + (j + 1) = i + 1 + j by omega]
    rcases readBatchRecordIntoDB_cases (env i) db s with
      ⟨why, hr, hbad⟩ | ⟨e, fr, hr, hx, hret, hne⟩ | ⟨fr, hr, hx, hret, hne⟩
    · refine ⟨0, Nat.zero_le _, ?_, by simp, Or.inr ⟨?_, s, List.getElem?_cons_zero, ?_⟩⟩
      · simp [ingestBatchLoop, hr, insertedBatchRows_nil, DB.eta]
      · simp [ingestBatchLoop, hr]
      · rcases hbad with hbad | hbad
        · exact Or.inl ((FindString_eq_nil_iff _).mp hbad)
        · exact Or.inr (by simpa using hbad)
    · simp only [ingestBatchLoop, hr, hret]
      exact hstep db _ rfl (by simp [hx]) hne
    · simp only [ingestBatchLoop, hr, hret]
      exact hstep _ _ rfl (by simp [hx]) hne

theorem insertedBatchRows_all (env : Nat → TxOutcome) (l : List JobSummary) :
    ∀ i, (∀ j, j < l.length → (env (i + j)).execErr = none) →
      insertedBatchRows env i l =
        l.map (fun s => batchRow (FindString uuidMatchingMachine s.JobName) s) := by
  induction l with
  | nil => intro i _; rfl
  | cons s l ih =>
    intro i h
    have h0 : (env i).execErr = none := by simpa using h 0 (by simp)
    have h' : ∀ j, j < l.length → (env (i + 1 + j)).execErr = none := by
      intro j hj
      have := h (j + 1) (by simpa using hj)
      rwa [show i + (j + 1) = i + 1 + j by omega] at this
    simp [insertedBatchRows_cons, h0, ih (i + 1) h']

theorem batchRow_isBatchRowOf (s : JobSummary) (h : ContainsUuidShape s.JobName) :
    IsBatchRowOf s (batchRow (FindString uuidMatchingMachine s.JobName) s) :=
  ⟨rfl, rfl, rfl, rfl, UnixMilli_isMillis _, UnixMilli_isMillis _, UnixMilli_isMillis _,
    FindString_leftmost _ h⟩

theorem IngestBatchRecords_decoded (env : Nat → TxOutcome) (db : DB) (l : List JobSummary) :
    IngestBatchRecords env db (SummaryInput.decoded ⟨l⟩) =
      ingestBatchLoop env 0 db [LogEvent.readBatchRecords l.length] l := rfl

/-! ## The header map -/

theorem find?_fillHeader_of_not_mem (x : List Str) (k : Str) (hk : k ∉ x) :
    ∀ (j : Nat) (h : Header), Header.find? (fillHeader j x h) k = Header.find? h k := by
  induction x with
  | nil => intro j h; rfl
  | cons a x ih =>
    intro j h
    have ha : a ≠ k := fun e => hk (e ▸ List.mem_cons_self _ _)
    have hx : k ∉ x := fun e => hk (List.mem_cons_of_mem _ e)
    simp [fillHeader, ih hx, Header.find?, ha]

theorem find?_fillHeader_of_isColumn (x : List Str) (k : Str) :
    ∀ (i j : Nat) (h : Header), IsColumn x k i →
      Header.find? (fillHeader j x h) k = some (j + i) := by
  induction x with
  | nil => intro i j h hc; simp [IsColumn] at hc
  | cons a x ih =>
    intro i j h hc
    cases i with
    | zero =>
      obtain ⟨h1, h2⟩ := hc
      simp only [List.getElem?_cons_zero, Option.some.injEq] at h1
      simp only [Nat.zero_add, List.drop_succ_cons, List.drop_zero] at h2
      simp [fillHeader, find?_fillHeader_of_not_mem x k h2, Header.find?, h1]
    | succ i =>
      obtain ⟨h1, h2⟩ := hc
      have hc' : IsColumn x k i := ⟨by simpa using h1, by simpa using h2⟩
      simp only [fillHeader, ih i (j + 1) _ hc']
      congr 1
      omega

/-- A name that occurs in the header row has a position there in the sense of `IsColumn`. -/
theorem exists_isColumn_of_mem (x : List Str) (k : Str) (hk : k ∈ x) :
    ∃ i, IsColumn x k i := by
  induction x with
  | nil => simp at hk
  | cons a x ih =>
    by_cases hx : k ∈ x
    · obtain ⟨i, h1, h2⟩ := ih hx
      exact ⟨i + 1, by simpa using h1, by simpa using h2⟩
    · have ha : a = k := by
        rcases List.mem_cons.mp hk with h | h
        · exact h.symm
        · exact absurd h hx
      exact ⟨0, by simp [ha], by simpa using hx⟩

theorem IsColumn.lt_length {x : List Str} {k : Str} {i : Nat} (h : IsColumn x k i) :
    i < x.length := by
  rcases List.getElem?_eq_some.mp h.1 with ⟨hl, -⟩
  exact hl

theorem IsColumn.mem {x : List Str} {k : Str} {i : Nat} (h : IsColumn x k i) : k ∈ x := by
  rcases List.getElem?_eq_some.mp h.1 with ⟨hl, he⟩
  rw [← he]
  exact List.getElem_mem _

/-- With the four columns present, `makeHeader` returns a map that sends each of the four
names to its position in the header row. -/
theorem makeHeader_ok (hdr : List Str) (jd js jt jm : Nat)
    (hd : IsColumn hdr fieldDate jd) (hs : IsColumn hdr fieldService js)
    (ht : IsColumn hdr fieldThread jt) (hm : IsColumn hdr fieldMessage jm) :
    ∃ h : Header, makeHeader hdr [] = Except.ok h ∧
      h.index fieldDate = jd ∧ h.index fieldService = js ∧
      h.index fieldThread = jt ∧ h.index fieldMessage = jm := by
  have e1 := find?_fillHeader_of_isColumn hdr fieldDate jd 0 [] hd
  have e2 := find?_fillHeader_of_isColumn hdr fieldService js 0 [] hs
  have e3 := find?_fillHeader_of_isColumn hdr fieldThread jt 0 [] ht
  have e4 := find?_fillHeader_of_isColumn hdr fieldMessage jm 0 [] hm
  refine ⟨fillHeader 0 hdr [], ?_, ?_, ?_, ?_, ?_⟩
  · simp [makeHeader, e1, e2, e3, e4]
  · simp [Header.index, e1]
  · simp [Header.index, e2]
  · simp [Header.index, e3]
  · simp [Header.index, e4]

/-- With one of the four columns absent, `makeHeader` ends the process. -/
theorem makeHeader_missing (hdr : List Str)
    (h : fieldDate ∉ hdr ∨ fieldService ∉ hdr ∨ fieldThread ∉ hdr ∨ fieldMessage ∉ hdr) :
    ∃ why, makeHeader hdr [] = Except.error why := by
  unfold makeHeader
  simp only
  split_ifs with h1 h2 h3 h4
  · exact ⟨_, rfl⟩
  · exact ⟨_, rfl⟩
  · exact ⟨_, rfl⟩
  · exact ⟨_, rfl⟩
  · exfalso
    have hn : ∀ k, k ∉ hdr → (Header.find? (fillHeader 0 hdr []) k).isNone = true := by
      intro k hk
      rw [find?_fillHeader_of_not_mem hdr k hk]
      rfl
    rcases h with h | h | h | h
    · exact h1 (hn _ h)
    · exact h2 (hn _ h)
    · exact h3 (hn _ h)
    · exact h4 (hn _ h)

/-! ## Loading one log record, and the loop over the data rows -/

/-- The three ways a per-record load of a log row can end. -/
theorem readLogRecordIntoDB_cases (o : TxOutcome) (db : DB) (id : Str) (ts : Time)
    (service thread : Str) :
    (∃ why, readLogRecordIntoDB o db id ts service thread = Except.error why ∧
      ¬ o.StoreHealthy) ∨
    (∃ e fr, readLogRecordIntoDB o db id ts service thread = Except.ok (db, fr) ∧
      o.execErr = some e ∧
      fr.ret = some (Error.wrapped "failed to retrieve last inserted book" e)) ∨
    (∃ fr, readLogRecordIntoDB o db id ts service thread =
        Except.ok ({ db with log := db.log ++ [⟨id, ts, service, thread⟩] }, fr) ∧
      o.execErr = none ∧ fr.ret = none) := by
  obtain ⟨b, p, x, c, cl⟩ := o
  unfold readLogRecordIntoDB MustCheck TxOutcome.StoreHealthy
  cases b with
  | some e => left; exact ⟨_, rfl, by simp⟩
  | none =>
    cases p with
    | some e => left; exact ⟨_, rfl, by simp⟩
    | none =>
      cases x with
      | some e =>
        right; left
        exact ⟨e, returning (some (Error.wrapped "failed to retrieve last inserted book" e))
          (some e) ⟨cl, false, 0⟩, rfl, rfl, rfl⟩
      | none =>
        cases c with
        | some e => left; exact ⟨Fatal.mustCheck e, rfl, by simp⟩
        | none =>
          right; right
          exact ⟨returning none none (TxStmt.afterCommit ⟨cl, false, 0⟩), rfl, rfl, rfl⟩

theorem insertedLogRows_nil (env : Nat → TxOutcome) (jd js jt jm i : Nat) :
    insertedLogRows env jd js jt jm i [] = [] := rfl

theorem insertedLogRows_cons (env : Nat → TxOutcome) (jd js jt jm i : Nat) (x : List Str)
    (rows : List (List Str)) :
    insertedLogRows env jd js jt jm i (x :: rows) =
      (if (env i).execErr = none then (logRowOf jd js jt jm x).toList else []) ++
        insertedLogRows env jd js jt jm (i + 1) rows := by
  unfold insertedLogRows
  by_cases h : (env i).execErr = none
  · cases hr : logRowOf jd js jt jm x <;>
      simp [List.enumFrom_cons, List.filter_cons, h, List.filterMap_cons, hr]
  · simp [List.enumFrom_cons, List.filter_cons, h]

/-- The loop over data rows that all have the four fields: it stops at the first row `j` whose
date does not parse or for which the store fails, or visits every row; the rows of the rows
before `j` whose insert succeeded are appended to `log`. -/
theorem ingestLogLoop_data (env : Nat → TxOutcome) (h : Header) (jd js jt jm : Nat)
    (hjd : h.index fieldDate = jd) (hjs : h.index fieldService = js)
    (hjt : h.index fieldThread = jt) (hjm : h.index fieldMessage = jm)
    (rows : List (List Str)) :
    ∀ (i : Nat) (db : DB) (logs : List LogEvent),
      (∀ x ∈ rows, jd < x.length ∧ js < x.length ∧ jt < x.length ∧ jm < x.length) →
      ∃ j, j ≤ rows.length ∧
        (ingestLogLoop env (i + 1) h db logs rows).db =
          ⟨db.batch, db.log ++ insertedLogRows env jd js jt jm i (rows.take j)⟩ ∧
        (∀ x ∈ rows.take j, (logRowOf jd js jt jm x).isSome = true) ∧
        ((j = rows.length ∧
            (ingestLogLoop env (i + 1) h db logs rows).exit = Exit.returned none) ∨
         ((ingestLogLoop env (i + 1) h db logs rows).exit = Exit.halted ∧
            ∃ x, rows[j]? = some x ∧
              (logRowOf jd js jt jm x = none ∨ ¬ (env (i + j)).StoreHealthy))) := by
  induction rows with
  | nil =>
    intro i db logs _
    exact ⟨0, Nat.le_refl _, by simp [ingestLogLoop, insertedLogRows_nil, DB.eta],
      by simp, Or.inl ⟨rfl, rfl⟩⟩
  | cons x rows ih =>
    intro i db logs hlen
    obtain ⟨ld, ls, lt, lm⟩ := hlen x (List.mem_cons_self _ _)
    have hlen' : ∀ y ∈ rows, jd < y.length ∧ js < y.length ∧ jt < y.length ∧ jm < y.length :=
      fun y hy => hlen y (List.mem_cons_of_mem _ hy)
    have gd : x[jd]? = some x[jd] := List.getElem?_eq_getElem ld
    have gs : x[js]? = some x[js] := List.getElem?_eq_getElem ls
    have gt : x[jt]? = some x[jt] := List.getElem?_eq_getElem lt
    have gm : x[jm]? = some x[jm] := List.getElem?_eq_getElem lm
    have hstep : ∀ (db' : DB) (logs' : List LogEvent) (row : Option LogRow),
        db'.batch = db.batch →
        db'.log = db.log ++ (if (env i).execErr = none then row.toList else []) →
        logRowOf jd js jt jm x = row → row.isSome = true →
        ∃ j, j ≤ (x :: rows).length ∧
          (ingestLogLoop env (i + 1 + 1) h db' logs' rows).db =
            ⟨db.batch, db.log ++ insertedLogRows env jd js jt jm i ((x :: rows).take j)⟩ ∧
          (∀ y ∈ (x :: rows).take j, (logRowOf jd js jt jm y).isSome = true) ∧
          ((j = (x :: rows).length ∧
              (ingestLogLoop env (i + 1 + 1) h db' logs' rows).exit = Exit.returned none) ∨
           ((ingestLogLoop env (i + 1 + 1) h db' logs' rows).exit = Exit.halted ∧
              ∃ y, (x :: rows)[j]? = some y ∧
                (logRowOf jd js jt jm y = none ∨ ¬ (env (i + j)).StoreHealthy))) := by
      intro db' logs' row hb hl hrow hsome
      obtain ⟨j, hj, hdb, hall, hex⟩ := ih (i + 1) db' logs' hlen'
      refine ⟨j + 1, by simpa using hj, ?_, ?_, ?_⟩
      · rw [hdb, hb, hl, List.take_succ_cons, insertedLogRows_cons, hrow]
        simp
      · intro y hy
        rw [List.take_succ_cons] at hy
        rcases List.mem_cons.mp hy with rfl | hy
        · rw [hrow]; exact hsome
        · exact hall y hy
      · rcases hex with ⟨e1, e2⟩ | ⟨e1, y, e2, e3⟩
        · exact Or.inl ⟨by simp [e1], e2⟩
        · refine Or.inr ⟨e1, y, by simpa using e2, ?_⟩
          rwa [show i + (j + 1) = i + 1 + j by omega]
    cases hp : Parse (x[jd]) with
    | none =>
      have hrow : logRowOf jd js jt jm x = none := by simp [logRowOf, gd, gs, gt, gm, hp]
      refine ⟨0, Nat.zero_le _, ?_, by simp, Or.inr ⟨?_, x, List.getElem?_cons_zero, Or.inl hrow⟩⟩
      · simp [ingestLogLoop, hjd, gd, hp, insertedLogRows_nil, DB.eta]
      · simp [ingestLogLoop, hjd, gd, hp]
    | some ts =>
      have hrow : logRowOf jd js jt jm x = some ⟨FindString uuidMatchingMachine
          (x[jm]), ts, x[js], x[jt]⟩ := by
        simp [logRowOf, gd, gs, gt, gm, hp]
      have hunf : ingestLogLoop env (i + 1) h db logs (x :: rows) =
          match readLogRecordIntoDB (env i) db (FindString uuidMatchingMachine
            (x[jm])) ts (x[js]) (x[jt]) with
          | Except.error why => ⟨db, logs ++ [LogEvent.fatal why], Exit.halted⟩
          | Except.ok (db', fr) =>
            match fr.ret with
            | some errLoading =>
              ingestLogLoop env (i + 1 + 1) h db'
                (logs ++ [LogEvent.recordFailed errLoading]) rows
            | none => ingestLogLoop env (i + 1 + 1) h db' logs rows := by
        simp [ingestLogLoop, hjd, hjs, hjt, hjm, gd, gs, gt, gm, hp]
      rcases readLogRecordIntoDB_cases (env i) db (FindString uuidMatchingMachine
          (x[jm])) ts (x[js]) (x[jt]) with
        ⟨why, hr, hbad⟩ | ⟨e, fr, hr, hx, hret⟩ | ⟨fr, hr, hx, hret⟩
      · refine ⟨0, Nat.zero_le _, ?_, by simp, Or.inr ⟨?_, x, List.getElem?_cons_zero, Or.inr (by simpa using hbad)⟩⟩
        · rw [hunf, hr]; simp [insertedLogRows_nil, DB.eta]
        · rw [hunf, hr]
      · rw [hunf, hr]
        simp only [hret]
        exact hstep db _ _ rfl (by simp [hx]) hrow rfl
      · rw [hunf, hr]
        simp only [hret]
        exact hstep _ _ _ rfl (by simp [hx]) hrow rfl

/-! ## What `Parse` accepts -/

theorem getnum_some (s : Str) (fixed : Bool) (v : Nat) (rest : Str)
    (h : getnum s fixed = some (v, rest)) :
    ∃ ds, s = ds ++ rest ∧ AllDigits ds ∧ (ds.length = 2 ∨ (fixed = false ∧ ds.length = 1)) := by
  unfold getnum at h
  match s, h with
  | c :: [], h =>
    by_cases hc : isDigitChar c = true
    · cases fixed with
      | true => simp [hc] at h
      | false =>
        simp [hc] at h
        obtain ⟨-, rfl⟩ := h
        exact ⟨[c], rfl, by simp [AllDigits, hc], Or.inr ⟨rfl, rfl⟩⟩
    · simp [hc] at h
  | c :: d :: rest', h =>
    by_cases hc : isDigitChar c = true
    · by_cases hd : isDigitChar d = true
      · simp [hc, hd] at h
        obtain ⟨-, rfl⟩ := h
        exact ⟨[c, d], rfl, by simp [AllDigits, hc, hd], Or.inl rfl⟩
      · cases fixed with
        | true => simp [hc, hd] at h
        | false =>
          simp [hc, hd] at h
          obtain ⟨-, rfl⟩ := h
          exact ⟨[c], rfl, by simp [AllDigits, hc], Or.inr ⟨rfl, rfl⟩⟩
    · simp [hc] at h

theorem skip_single (s : Str) (c : Char) (rest : Str) (h : skip s [c] = some rest) :
    s = c :: rest := by
  cases s with
  | nil => simp [skip] at h
  | cons v s =>
    by_cases hv : v = c
    · subst hv
      simp [skip] at h
      rw [h]
    · simp [skip, hv] at h

theorem leadingInt_nil (s : Str) : ∀ x, (leadingInt x s).2 = [] → AllDigits s := by
  induction s with
  | nil => intro _ _; simp [AllDigits]
  | cons c s ih =>
    intro x h
    by_cases hc : isDigitChar c = true
    · simp only [leadingInt, hc, if_true] at h
      intro y hy
      rcases List.mem_cons.mp hy with rfl | hy
      · exact hc
      · exact ih _ h y hy
    · simp [leadingInt, hc] at h

theorem isDigitChar_ne (c : Char) (h : isDigitChar c = true) : c ≠ '-' ∧ c ≠ '+' := by
  constructor
  · rintro rfl; revert h; decide
  · rintro rfl; revert h; decide

theorem atoi_some (s : Str) (y : Int) (hd : isDigit s 0 = true) (h : atoi s = some y) :
    AllDigits s := by
  cases s with
  | nil => simp [AllDigits]
  | cons c s =>
    have hc : isDigitChar c = true := by simpa [isDigit] using hd
    obtain ⟨h1, h2⟩ := isDigitChar_ne c hc
    unfold atoi at h
    simp only [List.head?_cons, Option.some.injEq, h1, h2, or_self, if_false] at h
    by_cases hr : (leadingInt 0 (c :: s)).2 = []
    · exact leadingInt_nil _ _ hr
    · simp [hr] at h

theorem countDigits_take (s : Str) : AllDigits (s.take (countDigits s)) := by
  induction s with
  | nil => simp [AllDigits]
  | cons c s ih =>
    by_cases hc : isDigitChar c = true
    · simp only [countDigits, hc, if_true, List.take_succ_cons]
      intro y hy
      rcases List.mem_cons.mp hy with rfl | hy
      · exact hc
      · exact ih y hy
    · simp [countDigits, hc, AllDigits]

theorem fracSecond9_some (v : Str) (ns : Int) (rest : Str)
    (h : fracSecond9 v = some (ns, rest)) :
    ∃ frac, v = frac ++ rest ∧
      (frac = [] ∨ ∃ sep f, frac = sep :: f ∧ (sep = '.' ∨ sep = ',') ∧ f ≠ [] ∧ AllDigits f) := by
  unfold fracSecond9 at h
  split at h
  · rename_i c d tl
    by_cases hc : (commaOrPeriod c && isDigitChar d) = true
    · simp only [hc, if_true] at h
      split at h
      · cases h
      · rename_i ns' hns
        simp only [Option.some.injEq, Prod.mk.injEq] at h
        obtain ⟨-, rfl⟩ := h
        simp only [Bool.and_eq_true] at hc
        refine ⟨c :: (d :: tl).take (countDigits (d :: tl)), ?_, Or.inr ⟨c, _, rfl, ?_, ?_, ?_⟩⟩
        · simp only [List.drop_succ_cons, List.drop_zero, Nat.add_comm 1, List.cons_append,
            List.take_append_drop]
        · simpa [commaOrPeriod] using hc.1
        · simp [countDigits, hc.2]
        · exact countDigits_take _
    · simp only [hc] at h
      simp only [Bool.false_eq_true, if_false, Option.some.injEq, Prod.mk.injEq] at h
      exact ⟨[], by simp [h.2], Or.inl rfl⟩
  · simp only [Option.some.injEq, Prod.mk.injEq] at h
    exact ⟨[], by simp [h.2], Or.inl rfl⟩

/-- Every value that `Parse` accepts has the loose form. -/
theorem Parse_some_loose (v : Str) (t : Time) (h : Parse v = some t) : IsLooseDateForm v := by
  unfold Parse at h
  split at h
  · cases h
  rename_i h0
  simp only [not_or, Nat.not_lt, Bool.not_eq_false] at h0
  obtain ⟨hlen, hdig⟩ := h0
  split at h
  · cases h
  rename_i year hyear
  split at h
  · cases h
  rename_i v1 hv1
  split at h
  · cases h
  rename_i month v2 hmonth
  split at h
  · cases h
  rename_i hmr
  split at h
  · cases h
  rename_i v3 hv3
  split at h
  · cases h
  rename_i day v4 hday
  split at h
  · cases h
  rename_i v5 hv5
  split at h
  · cases h
  rename_i hour v6 hhour
  split at h
  · cases h
  rename_i hhr
  split at h
  · cases h
  rename_i v7 hv7
  split at h
  · cases h
  rename_i min v8 hmin
  split at h
  · cases h
  rename_i hminr
  split at h
  · cases h
  rename_i v9 hv9
  split at h
  · cases h
  rename_i sec v10 hsec
  split at h
  · cases h
  rename_i hsecr
  split at h
  · cases h
  rename_i nsec v11 hfrac
  split at h
  · cases h
  rename_i v12 hv12
  split at h
  · cases h
  rename_i hend
  split at h
  · cases h
  rename_i hdayr
  simp only [ne_eq, not_not] at hend
  subst hend
  have hy : AllDigits (v.take 4) := by
    refine atoi_some _ year ?_ hyear
    cases v with
    | nil => simp at hlen
    | cons c v => simpa [isDigit] using hdig
  have e0 : v = v.take 4 ++ v.drop 4 := (List.take_append_drop 4 v).symm
  have e1 := skip_single _ _ _ hv1
  obtain ⟨mo, e2, dmo, lmo⟩ := getnum_some _ _ _ _ hmonth
  have e3 := skip_single _ _ _ hv3
  obtain ⟨d, e4, dd, ld⟩ := getnum_some _ _ _ _ hday
  have e5 := skip_single _ _ _ hv5
  obtain ⟨hh, e6, dh, lh⟩ := getnum_some _ _ _ _ hhour
  have e7 := skip_single _ _ _ hv7
  obtain ⟨mi, e8, dmi, lmi⟩ := getnum_some _ _ _ _ hmin
  have e9 := skip_single _ _ _ hv9
  obtain ⟨s, e10, ds, ls⟩ := getnum_some _ _ _ _ hsec
  obtain ⟨frac, e11, hfr⟩ := fracSecond9_some _ _ _ hfrac
  have e12 := skip_single _ _ _ hv12
  refine ⟨v.take 4, mo, d, hh, mi, s, frac, ?_, ?_, ?_, ?_, ?_, ?_, ?_, hy, dmo, dd, dh, dmi, ds, hfr⟩
  · rw [← e12, ← e11, ← e10, ← e9, ← e8, ← e7, ← e6, ← e5, ← e4, ← e3, ← e2, ← e1]
    exact e0
  · rw [List.length_take]; omega
  · simpa using lmo
  · simpa using ld
  · rcases lh with h | h
    · exact Or.inr h
    · exact Or.inl h.2
  · simpa using lmi
  · simpa using ls

/-! ## `IngestLogRecords` on a table with a header row -/

theorem IngestLogRecords_db (env : Nat → TxOutcome) (db : DB) (all : List (List Str)) :
    (IngestLogRecords env db (CsvInput.records all)).db = (ingestLogLoop env 0 [] db [] all).db := by
  unfold IngestLogRecords
  simp only
  split <;> rfl

theorem IngestLogRecords_exit_returned (env : Nat → TxOutcome) (db : DB) (all : List (List Str))
    (h : (ingestLogLoop env 0 [] db [] all).exit = Exit.returned none) :
    (IngestLogRecords env db (CsvInput.records all)).exit = Exit.returned none := by
  unfold IngestLogRecords
  simp only [h]

theorem IngestLogRecords_exit_halted (env : Nat → TxOutcome) (db : DB) (all : List (List Str))
    (h : (ingestLogLoop env 0 [] db [] all).exit = Exit.halted) :
    (IngestLogRecords env db (CsvInput.records all)).exit = Exit.halted := by
  unfold IngestLogRecords
  simp only [h]

theorem ingestLogLoop_header_ok (env : Nat → TxOutcome) (db : DB) (hdr : List Str)
    (rows : List (List Str)) (h : Header) (hh : makeHeader hdr [] = Except.ok h) :
    ingestLogLoop env 0 [] db [] (hdr :: rows) = ingestLogLoop env (0 + 1) h db [] rows := by
  simp [ingestLogLoop, hh]

/-- A table with the four columns in its header and data rows as long as the header: the run
stops at the first data row `j` whose date does not parse or for which the store fails, or
visits every row and returns nil. -/
theorem IngestLogRecords_table (env : Nat → TxOutcome) (db : DB) (hdr : List Str)
    (rows : List (List Str)) (jd js jt jm : Nat)
    (hd : IsColumn hdr fieldDate jd) (hs : IsColumn hdr fieldService js)
    (ht : IsColumn hdr fieldThread jt) (hm : IsColumn hdr fieldMessage jm)
    (hlen : ∀ x ∈ rows, x.length = hdr.length) :
    ∃ j, j ≤ rows.length ∧
      (IngestLogRecords env db (CsvInput.records (hdr :: rows))).db =
        ⟨db.batch, db.log ++ insertedLogRows env jd js jt jm 0 (rows.take j)⟩ ∧
      (∀ x ∈ rows.take j, (logRowOf jd js jt jm x).isSome = true) ∧
      ((j = rows.length ∧
          (IngestLogRecords env db (CsvInput.records (hdr :: rows))).exit = Exit.returned none) ∨
       ((IngestLogRecords env db (CsvInput.records (hdr :: rows))).exit = Exit.halted ∧
          ∃ x, rows[j]? = some x ∧
            (logRowOf jd js jt jm x = none ∨ ¬ (env j).StoreHealthy))) := by
  obtain ⟨h, hh, ijd, ijs, ijt, ijm⟩ := makeHeader_ok hdr jd js jt jm hd hs ht hm
  have hlen' : ∀ x ∈ rows, jd < x.length ∧ js < x.length ∧ jt < x.length ∧ jm < x.length := by
    intro x hx
    rw [hlen x hx]
    exact ⟨hd.lt_length, hs.lt_length, ht.lt_length, hm.lt_length⟩
  obtain ⟨j, hj, hdb, hall, hex⟩ :=
    ingestLogLoop_data env h jd js jt jm ijd ijs ijt ijm rows 0 db [] hlen'
  have hloop := ingestLogLoop_header_ok env db hdr rows h hh
  refine ⟨j, hj, ?_, hall, ?_⟩
  · rw [IngestLogRecords_db, hloop, hdb]
  · rcases hex with ⟨e1, e2⟩ | ⟨e1, x, e2, e3⟩
    · exact Or.inl ⟨e1, IngestLogRecords_exit_returned env db _ (by rw [hloop]; exact e2)⟩
    · refine Or.inr ⟨IngestLogRecords_exit_halted env db _ (by rw [hloop]; exact e1), x, e2, ?_⟩
      simpa using e3

theorem insertedLogRows_all (env : Nat → TxOutcome) (jd js jt jm : Nat)
    (rows : List (List Str)) :
    ∀ i, (∀ j, j < rows.length → (env (i + j)).execErr = none) →
      insertedLogRows env jd js jt jm i rows = rows.filterMap (logRowOf jd js jt jm) := by
  induction rows with
  | nil => intro i _; rfl
  | cons x rows ih =>
    intro i h
    have h0 : (env i).execErr = none := by simpa using h 0 (by simp)
    have h' : ∀ j, j < rows.length → (env (i + 1 + j)).execErr = none := by
      intro j hj
      have := h (j + 1) (by simpa using hj)
      rwa [show i + (j + 1) = i + 1 + j by omega] at this
    rw [insertedLogRows_cons, ih (i + 1) h', List.filterMap_cons]
    cases logRowOf jd js jt jm x <;> simp [h0]

theorem logRowOf_isLogRowOf (jd js jt jm : Nat) (x : List Str) (r : LogRow)
    (h : logRowOf jd js jt jm x = some r) : IsLogRowOf jd js jt jm x r := by
  unfold logRowOf at h
  split at h
  · rename_i date message service thread hd hm hs ht
    split at h
    · rename_i ts hts
      simp only [Option.some.injEq] at h
      subst h
      refine ⟨hs, ht, ⟨date, hd, hts⟩, message, hm, ?_⟩
      by_cases hc : ContainsUuidShape message
      · exact Or.inl ⟨hc, FindString_leftmost message hc⟩
      · exact Or.inr ⟨hc, (FindString_eq_nil_iff message).mpr hc⟩
    · cases h
  · cases h

theorem forall₂_filterMap_logRowOf (jd js jt jm : Nat) (rows : List (List Str))
    (h : ∀ x ∈ rows, (logRowOf jd js jt jm x).isSome = true) :
    List.Forall₂ (IsLogRowOf jd js jt jm) rows (rows.filterMap (logRowOf jd js jt jm)) := by
  induction rows with
  | nil => exact List.Forall₂.nil
  | cons x rows ih =>
    have hx := h x (List.mem_cons_self _ _)
    obtain ⟨r, hr⟩ := Option.isSome_iff_exists.mp hx
    rw [List.filterMap_cons, hr]
    exact List.Forall₂.cons (logRowOf_isLogRowOf jd js jt jm x r hr)
      (ih (fun y hy => h y (List.mem_cons_of_mem _ hy)))

theorem logRowOf_isSome_of_parse (jd js jt jm : Nat) (x : List Str)
    (hl : jd < x.length ∧ js < x.length ∧ jt < x.length ∧ jm < x.length)
    (hp : ∃ date t, x[jd]? = some date ∧ Parse date = some t) :
    (logRowOf jd js jt jm x).isSome = true := by
  obtain ⟨date, t, h1, h2⟩ := hp
  obtain ⟨-, ls, lt, lm⟩ := hl
  simp [logRowOf, h1, h2, List.getElem?_eq_getElem ls, List.getElem?_eq_getElem lt,
    List.getElem?_eq_getElem lm]

theorem logRowOf_none_of_not_loose (jd js jt jm : Nat) (x : List Str) (date : Str)
    (h1 : x[jd]? = some date) (h2 : ¬ IsLooseDateForm date) :
    logRowOf jd js jt jm x = none := by
  cases hr : logRowOf jd js jt jm x with
  | none => rfl
  | some r =>
    obtain ⟨-, -, ⟨date', hd', hp⟩, -⟩ := logRowOf_isLogRowOf jd js jt jm x r hr
    rw [h1] at hd'
    cases hd'
    exact absurd (Parse_some_loose _ _ hp) h2

/-! ## Moving columns around -/

theorem occurrences_one_unique (l : List Str) (a : Str) (h : occurrences a l = 1) :
    ∀ i j : Nat, l[i]? = some a → l[j]? = some a → i = j := by
  induction l with
  | nil => simp [occurrences] at h
  | cons b l ih =>
    intro i j hi hj
    by_cases hb : b = a
    · subst hb
      have h0 : occurrences b l = 0 := by
        unfold occurrences at h ⊢
        rw [List.countP_cons_of_pos _ _ (by simp)] at h
        omega
      have hn : b ∉ l := by
        intro hm
        unfold occurrences at h0
        rw [List.countP_eq_zero] at h0
        exact h0 b hm (by simp)
      cases i with
      | zero =>
        cases j with
        | zero => rfl
        | succ j =>
          simp only [List.getElem?_cons_succ] at hj
          exact absurd (List.mem_iff_getElem?.mpr ⟨j, hj⟩) hn
      | succ i =>
        simp only [List.getElem?_cons_succ] at hi
        exact absurd (List.mem_iff_getElem?.mpr ⟨i, hi⟩) hn
    · have h' : occurrences a l = 1 := by
        unfold occurrences at h ⊢
        rw [List.countP_cons_of_neg _ _ (by simpa using hb)] at h
        exact h
      cases i with
      | zero =>
        simp only [List.getElem?_cons_zero, Option.some.injEq] at hi
        exact absurd hi hb
      | succ i =>
        cases j with
        | zero =>
          simp only [List.getElem?_cons_zero, Option.some.injEq] at hj
          exact absurd hj hb
        | succ j =>
          simp only [List.getElem?_cons_succ] at hi hj
          rw [ih h' i j hi hj]

theorem mem_of_occurrences_one (l : List Str) (a : Str) (h : occurrences a l = 1) : a ∈ l := by
  unfold occurrences at h
  have hp : 0 < List.countP (fun c => decide (c = a)) l := by omega
  obtain ⟨b, hb, hba⟩ := List.countP_pos_iff.mp hp
  have : b = a := by simpa using hba
  exact this ▸ hb

theorem map_getD_range (x : List Str) :
    (List.range x.length).map (fun j => (x[j]?).getD []) = x := by
  apply List.ext_getElem
  · simp
  · intro n h1 h2
    simp at h1
    simp [List.getElem?_eq_getElem h2]

theorem permute_perm (p : List Nat) (x : List Str) (hp : p.Perm (List.range x.length)) :
    (permute p x).Perm x := by
  have := List.Perm.map (fun j => (x[j]?).getD []) hp
  rwa [map_getD_range] at this

theorem getElem?_permute (p : List Nat) (x : List Str) (j : Nat) :
    (permute p x)[j]? = (p[j]?).map (fun k => (x[k]?).getD []) := by
  simp [permute]

theorem ingestLogLoop_congr (env : Nat → TxOutcome) (h h' : Header)
    (rows rows' : List (List Str)) (hr : List.Forall₂ (SameFields h h') rows rows') :
    ∀ (i : Nat) (db : DB) (logs logs' : List LogEvent),
      (ingestLogLoop env (i + 1) h db logs rows).db =
        (ingestLogLoop env (i + 1) h' db logs' rows').db ∧
      (ingestLogLoop env (i + 1) h db logs rows).exit =
        (ingestLogLoop env (i + 1) h' db logs' rows').exit := by
  induction hr with
  | nil => intro i db logs logs'; simp [ingestLogLoop]
  | @cons x x' rows rows' hx _ ih =>
    intro i db logs logs'
    obtain ⟨e1, e2, e3, e4⟩ := hx
    simp only [ingestLogLoop, Nat.add_one_ne_zero, if_false, e1, e2, e3, e4]
    cases x'[h'.index fieldDate]? with
    | none => exact ⟨rfl, rfl⟩
    | some date =>
      simp only
      cases Parse date with
      | none => exact ⟨rfl, rfl⟩
      | some ts =>
        simp only
        cases x'[h'.index fieldMessage]? with
        | none => exact ⟨rfl, rfl⟩
        | some message =>
          simp only
          cases x'[h'.index fieldService]? with
          | none => exact ⟨rfl, rfl⟩
          | some service =>
            simp only
            cases x'[h'.index fieldThread]? with
            | none => exact ⟨rfl, rfl⟩
            | some thread =>
              simp only
              cases readLogRecordIntoDB (env (i + 1 - 1)) db
                  (FindString uuidMatchingMachine message) ts service thread with
              | error why => exact ⟨rfl, rfl⟩
              | ok q =>
                obtain ⟨db', fr⟩ := q
                simp only
                cases fr.ret with
                | none => exact ih (i + 1) db' logs logs'
                | some e => exact ih (i + 1) db' _ _

theorem IngestLogRecords_exit_eq (env : Nat → TxOutcome) (db : DB) (all : List (List Str)) :
    (IngestLogRecords env db (CsvInput.records all)).exit =
      match (ingestLogLoop env 0 [] db [] all).exit with
      | Exit.returned _ => Exit.returned none
      | e => e := by
  unfold IngestLogRecords
  simp only
  split <;> simp_all

theorem header_field (hdr : List Str) (f : Str) (hf : occurrences f hdr = 1) :
    ∃ j, IsColumn hdr f j :=
  exists_isColumn_of_mem hdr f (mem_of_occurrences_one hdr f hf)

theorem permuted_field (hdr x : List Str) (p : List Nat) (f : Str) (j j' : Nat)
    (hf : occurrences f hdr = 1) (hp : p.Perm (List.range hdr.length))
    (hx : x.length = hdr.length)
    (hj : hdr[j]? = some f) (hj' : (permute p hdr)[j']? = some f) :
    (permute p x)[j']? = x[j]? := by
  rw [getElem?_permute] at hj' ⊢
  cases hk : p[j']? with
  | none => rw [hk] at hj'; cases hj'
  | some k =>
    rw [hk] at hj'
    simp only [Option.map_some', Option.some.injEq] at hj' ⊢
    have hkmem : k ∈ p := List.mem_iff_getElem?.mpr ⟨j', hk⟩
    have hklt : k < hdr.length := by
      have := (hp.mem_iff).mp hkmem
      simpa using this
    rw [List.getElem?_eq_getElem hklt, Option.getD_some] at hj'
    have hkj : k = j :=
      occurrences_one_unique hdr f hf k j (by rw [List.getElem?_eq_getElem hklt, hj']) hj
    subst hkj
    rw [List.getElem?_eq_getElem (hx ▸ hklt), Option.getD_some]


/-! ## The claims about summaries -/

/-- C1: when every job name contains the 8-4-4-4-12 shape and every database call of every
record succeeds, `IngestBatchRecords` returns nil and appends one row per record to `batch`, in
input order; row `i` carries the job id, job name, status and status reason of record `i`, its
three times as the instants that many milliseconds after the epoch, and the leftmost occurrence
of the shape in the job name as correlation id; table `log` is unchanged. -/
theorem IngestBatchRecords_appends_every_record (env : Nat → TxOutcome) (db : DB)
    (l : List JobSummary)
    (hpat : ∀ s ∈ l, ContainsUuidShape s.JobName)
    (hok : ∀ i, i < l.length → (env i).AllSucceed) :
    ∃ rows : List BatchRow,
      (IngestBatchRecords env db (SummaryInput.decoded ⟨l⟩)).db.batch = db.batch ++ rows ∧
      rows.length = l.length ∧
      List.Forall₂ IsBatchRowOf l rows ∧
      (IngestBatchRecords env db (SummaryInput.decoded ⟨l⟩)).db.log = db.log ∧
      (IngestBatchRecords env db (SummaryInput.decoded ⟨l⟩)).exit = Exit.returned none := by
  have hst : ∀ j, j < l.length → (env (0 + j)).StoreHealthy := by
    intro j hj
    obtain ⟨h1, h2, -, h4⟩ := hok j hj
    simpa using (⟨h1, h2, h4⟩ : (env j).StoreHealthy)
  have hex : ∀ j, j < l.length → (env (0 + j)).execErr = none := by
    intro j hj
    simpa using (hok j hj).2.2.1
  obtain ⟨logs', hl⟩ := ingestBatchLoop_append env l [] 0 db
    [LogEvent.readBatchRecords l.length] hpat hst
  rw [List.append_nil] at hl
  refine ⟨l.map (fun s => batchRow (FindString uuidMatchingMachine s.JobName) s), ?_, ?_, ?_, ?_, ?_⟩
  · rw [IngestBatchRecords_decoded, hl, insertedBatchRows_all env l 0 hex]
    simp [ingestBatchLoop]
  · simp
  · rw [List.forall₂_map_right_iff, List.forall₂_same]
    exact fun s hs => batchRow_isBatchRowOf s (hpat s hs)
  · rw [IngestBatchRecords_decoded, hl]
    simp [ingestBatchLoop]
  · rw [IngestBatchRecords_decoded, hl]
    simp [ingestBatchLoop]

/-- C1 on the summary example of the specification: one row, with id `j1`, the correlation id
`c86a5ae7-3d84-405e-be0d-5936bbb18ab3` and the creation time one second after the epoch. -/
theorem IngestBatchRecords_appends_every_record_witness :
    (IngestBatchRecords (fun _ => okTx) emptyDB (SummaryInput.decoded ⟨[exampleJob]⟩)).db.batch
        = [exampleBatchRow] ∧
    ∃ rows : List BatchRow,
      (IngestBatchRecords (fun _ => okTx) emptyDB (SummaryInput.decoded ⟨[exampleJob]⟩)).db.batch
        = emptyDB.batch ++ rows ∧
      rows.length = [exampleJob].length ∧
      List.Forall₂ IsBatchRowOf [exampleJob] rows ∧
      (IngestBatchRecords (fun _ => okTx) emptyDB (SummaryInput.decoded ⟨[exampleJob]⟩)).db.log
        = emptyDB.log ∧
      (IngestBatchRecords (fun _ => okTx) emptyDB (SummaryInput.decoded ⟨[exampleJob]⟩)).exit
        = Exit.returned none :=
  ⟨by decide,
   IngestBatchRecords_appends_every_record (fun _ => okTx) emptyDB [exampleJob]
    (by
      intro s hs
      rw [List.mem_singleton] at hs
      subst hs
      exact (ContainsUuidShape_iff _).mpr (by decide))
    (by intro i _; exact ⟨rfl, rfl, rfl, rfl⟩)⟩

/-- C3: when record `k` is the first whose job name contains no 8-4-4-4-12 shape,
`IngestBatchRecords` halts the process, `log` is unchanged, and no row is inserted for record
`k` or a later one: `batch` holds, in addition to what it held, the rows of those of the first
`j` records whose insert succeeded, for some `j ≤ k`; when the store works for the records
before `k`, the process halts at record `k` and these are exactly the rows of the first `k`
records whose insert succeeded. Moreover, whatever the input and the database do, every row
that `IngestBatchRecords` adds to `batch` has a non-empty correlation id. -/
theorem IngestBatchRecords_halts_at_first_unmatched :
    (∀ (env : Nat → TxOutcome) (db : DB) (l : List JobSummary) (k : Nat) (s : JobSummary),
      l[k]? = some s → ¬ ContainsUuidShape s.JobName →
      (∀ i x, i < k → l[i]? = some x → ContainsUuidShape x.JobName) →
      (IngestBatchRecords env db (SummaryInput.decoded ⟨l⟩)).exit = Exit.halted ∧
      (IngestBatchRecords env db (SummaryInput.decoded ⟨l⟩)).db.log = db.log ∧
      (∃ j, j ≤ k ∧ (IngestBatchRecords env db (SummaryInput.decoded ⟨l⟩)).db.batch
        = db.batch ++ insertedBatchRows env 0 (l.take j)) ∧
      ((∀ i, i < k → (env i).StoreHealthy) →
        (IngestBatchRecords env db (SummaryInput.decoded ⟨l⟩)).db.batch
          = db.batch ++ insertedBatchRows env 0 (l.take k))) ∧
    (∀ (env : Nat → TxOutcome) (db : DB) (f : SummaryInput),
      ∀ row ∈ (IngestBatchRecords env db f).db.batch, row ∈ db.batch ∨ row.id ≠ []) := by
  constructor
  · intro env db l k s hk hs hbefore
    obtain ⟨hklt, -⟩ := List.getElem?_eq_some.mp hk
    obtain ⟨j, hj, hdb, hall, hex⟩ :=
      ingestBatchLoop_stops env l 0 db [LogEvent.readBatchRecords l.length]
    have hjk : j ≤ k := by
      by_contra hlt
      have hmem : s ∈ l.take j := by
        rw [List.mem_iff_getElem?]
        exact ⟨k, by rw [List.getElem?_take_of_lt (by omega)]; exact hk⟩
      exact hs (hall s hmem)
    rw [IngestBatchRecords_decoded]
    rcases hex with ⟨e1, -⟩ | ⟨e1, x, e2, e3⟩
    · omega
    · refine ⟨e1, by rw [hdb], ⟨j, hjk, by rw [hdb]⟩, ?_⟩
      intro hst
      have hjeq : j = k := by
        by_contra hne
        have hlt : j < k := by omega
        rcases e3 with e3 | e3
        · exact e3 (hbefore j x hlt e2)
        · exact e3 (by simpa using hst j hlt)
      rw [hdb, hjeq]
  · intro env db f row hrow
    cases f with
    | unreadable e => left; simpa [IngestBatchRecords, parseInput] using hrow
    | malformed e => left; simpa [IngestBatchRecords, parseInput] using hrow
    | decoded sf =>
      obtain ⟨l⟩ := sf
      rw [IngestBatchRecords_decoded] at hrow
      exact ingestBatchLoop_ids env l 0 db _ row hrow

/-- C3 on the list `[exampleJob, unnamedJob, exampleJob]`: the process halts at record 1 and
only the row of record 0 is stored. -/
theorem IngestBatchRecords_halts_at_first_unmatched_witness :
    (IngestBatchRecords (fun _ => okTx) emptyDB
        (SummaryInput.decoded ⟨[exampleJob, unnamedJob, exampleJob]⟩)).exit = Exit.halted ∧
    (IngestBatchRecords (fun _ => okTx) emptyDB
        (SummaryInput.decoded ⟨[exampleJob, unnamedJob, exampleJob]⟩)).db.batch
      = emptyDB.batch ++
          insertedBatchRows (fun _ => okTx) 0 ([exampleJob, unnamedJob, exampleJob].take 1) ∧
    insertedBatchRows (fun _ => okTx) 0 ([exampleJob, unnamedJob, exampleJob].take 1)
      = [exampleBatchRow] :=
  ⟨(IngestBatchRecords_halts_at_first_unmatched.1 (fun _ => okTx) emptyDB
      [exampleJob, unnamedJob, exampleJob] 1 unnamedJob rfl
      (fun h => absurd rfl ((ContainsUuidShape_iff _).mp h))
      (by
        intro i x hi hx
        have : i = 0 := by omega
        subst this
        simp only [List.getElem?_cons_zero, Option.some.injEq] at hx
        subst hx
        exact (ContainsUuidShape_iff _).mpr (by decide))).1,
   (IngestBatchRecords_halts_at_first_unmatched.1 (fun _ => okTx) emptyDB
      [exampleJob, unnamedJob, exampleJob] 1 unnamedJob rfl
      (fun h => absurd rfl ((ContainsUuidShape_iff _).mp h))
      (by
        intro i x hi hx
        have : i = 0 := by omega
        subst this
        simp only [List.getElem?_cons_zero, Option.some.injEq] at hx
        subst hx
        exact (ContainsUuidShape_iff _).mpr (by decide))).2.2.2
      (by intro i _; exact ⟨rfl, rfl, rfl⟩),
   by decide⟩

/-! ## The claim about `SafeClose` -/

/-- C7: `SafeClose` calls `Close` exactly once (the resource is left as one `Close` leaves it;
a statement that counts its releases counts one more), and afterwards the error slot holds the
earlier error if there was one, else the error of `Close` if it failed, else nil. -/
theorem SafeClose_releases_once {σ : Type} (c : Closer σ) (st : σ) (err : Option Error) :
    (SafeClose c st err).1 = (c.Close st).1 ∧
    (∀ stmt : Stmt, (SafeClose Stmt.closer stmt err).1.closes = stmt.closes + 1) ∧
    (∀ e, err = some e → (SafeClose c st err).2 = some e) ∧
    (∀ ce, err = none → (c.Close st).2 = some ce → (SafeClose c st err).2 = some ce) ∧
    (err = none → (c.Close st).2 = none → (SafeClose c st err).2 = none) := by
  refine ⟨?_, ?_, ?_, ?_, ?_⟩
  · unfold SafeClose; simp only; split_ifs <;> rfl
  · intro stmt; unfold SafeClose; simp only; split_ifs <;> rfl
  · intro e he; subst he; simp [SafeClose]
  · intro ce he hc; subst he; simp [SafeClose, hc]
  · intro he hc; subst he; simp [SafeClose, hc]

/-- C7 on a statement whose release fails, with an earlier error recorded: the statement is
released once and the earlier error stays. -/
theorem SafeClose_releases_once_witness :
    (SafeClose Stmt.closer ⟨some (Error.lib 5), 0⟩ (some (Error.lib 19))).1.closes = 1 ∧
    (SafeClose Stmt.closer ⟨some (Error.lib 5), 0⟩ (some (Error.lib 19))).2
      = some (Error.lib 19) :=
  ⟨(SafeClose_releases_once Stmt.closer ⟨some (Error.lib 5), 0⟩ (some (Error.lib 19))).2.1
      ⟨some (Error.lib 5), 0⟩,
   (SafeClose_releases_once Stmt.closer ⟨some (Error.lib 5), 0⟩ (some (Error.lib 19))).2.2.1
      (Error.lib 19) rfl⟩

/-! ## The claims about logs -/

/-- C2: for a table whose header row has the four columns, with `M` data rows as long as the
header whose date values parse, and every database call succeeding, `IngestLogRecords` returns
nil (no field lookup is out of range) and appends `M` rows to `log`, in input order; row `i`
carries the service and thread fields of data row `i`, the parsed time of its date field, and
the leftmost occurrence of the shape in its message field, or the empty string when the message
has none; table `batch` is unchanged. -/
theorem IngestLogRecords_appends_every_row (env : Nat → TxOutcome) (db : DB) (hdr : List Str)
    (rows : List (List Str)) (jd js jt jm : Nat)
    (hd : IsColumn hdr fieldDate jd) (hs : IsColumn hdr fieldService js)
    (ht : IsColumn hdr fieldThread jt) (hm : IsColumn hdr fieldMessage jm)
    (hlen : ∀ x ∈ rows, x.length = hdr.length)
    (hparse : ∀ x ∈ rows, ∃ date t, x[jd]? = some date ∧ Parse date = some t)
    (hok : ∀ i, i < rows.length → (env i).AllSucceed) :
    ∃ out : List LogRow,
      (IngestLogRecords env db (CsvInput.records (hdr :: rows))).db.log = db.log ++ out ∧
      out.length = rows.length ∧
      List.Forall₂ (IsLogRowOf jd js jt jm) rows out ∧
      (IngestLogRecords env db (CsvInput.records (hdr :: rows))).db.batch = db.batch ∧
      (IngestLogRecords env db (CsvInput.records (hdr :: rows))).exit = Exit.returned none := by
  have hsome : ∀ x ∈ rows, (logRowOf jd js jt jm x).isSome = true := by
    intro x hx
    refine logRowOf_isSome_of_parse jd js jt jm x ?_ (hparse x hx)
    rw [hlen x hx]
    exact ⟨hd.lt_length, hs.lt_length, ht.lt_length, hm.lt_length⟩
  obtain ⟨j, hj, hdb, -, hex⟩ := IngestLogRecords_table env db hdr rows jd js jt jm hd hs ht hm hlen
  have hfa := forall₂_filterMap_logRowOf jd js jt jm rows hsome
  rcases hex with ⟨e1, e2⟩ | ⟨-, x, e2, e3⟩
  · subst e1
    have hex' : ∀ j, j < rows.length → (env (0 + j)).execErr = none := by
      intro j hj
      simpa using (hok j hj).2.2.1
    rw [List.take_length, insertedLogRows_all env jd js jt jm rows 0 hex'] at hdb
    exact ⟨rows.filterMap (logRowOf jd js jt jm), by rw [hdb], hfa.length_eq.symm, hfa,
      by rw [hdb], e2⟩
  · exfalso
    obtain ⟨hlt, hxe⟩ := List.getElem?_eq_some.mp e2
    rcases e3 with e3 | e3
    · have := hsome x (hxe ▸ List.getElem_mem _)
      rw [e3] at this
      cases this
    · obtain ⟨h1, h2, -, h4⟩ := hok j hlt
      exact e3 ⟨h1, h2, h4⟩

/-- C2 on the log example of the specification: one row with the matched correlation id,
service `worker`, thread `thread-1` and the time 2021-12-11 06:25:15.107 UTC. -/
theorem IngestLogRecords_appends_every_row_witness :
    (IngestLogRecords (fun _ => okTx) emptyDB
        (CsvInput.records [exampleHeader, exampleLogLine])).db.log = [exampleLogRow] ∧
    ∃ out : List LogRow,
      (IngestLogRecords (fun _ => okTx) emptyDB
        (CsvInput.records (exampleHeader :: [exampleLogLine]))).db.log = emptyDB.log ++ out ∧
      out.length = [exampleLogLine].length ∧
      List.Forall₂ (IsLogRowOf 0 1 2 3) [exampleLogLine] out ∧
      (IngestLogRecords (fun _ => okTx) emptyDB
        (CsvInput.records (exampleHeader :: [exampleLogLine]))).db.batch = emptyDB.batch ∧
      (IngestLogRecords (fun _ => okTx) emptyDB
        (CsvInput.records (exampleHeader :: [exampleLogLine]))).exit = Exit.returned none :=
  ⟨by decide,
   IngestLogRecords_appends_every_row (fun _ => okTx) emptyDB exampleHeader [exampleLogLine]
    0 1 2 3 ⟨rfl, by decide⟩ ⟨rfl, by decide⟩ ⟨rfl, by decide⟩ ⟨rfl, by decide⟩
    (by decide)
    (by
      intro x hx
      rw [List.mem_singleton] at hx
      subst hx
      exact ⟨"2021-12-11T06:25:15.107Z".toList, ⟨1639203915, 107000000, Location.UTC⟩, rfl,
        by decide⟩)
    (by intro i _; exact ⟨rfl, rfl, rfl, rfl⟩)⟩

/-- C4: when the header row lacks one of the columns `date`, `Service`, `@thread_name` and
`message`, `IngestLogRecords` halts the process and both tables are left as they were,
whatever data rows follow. -/
theorem IngestLogRecords_halts_on_incomplete_header (env : Nat → TxOutcome) (db : DB)
    (hdr : List Str) (rows : List (List Str))
    (h : fieldDate ∉ hdr ∨ fieldService ∉ hdr ∨ fieldThread ∉ hdr ∨ fieldMessage ∉ hdr) :
    (IngestLogRecords env db (CsvInput.records (hdr :: rows))).exit = Exit.halted ∧
    (IngestLogRecords env db (CsvInput.records (hdr :: rows))).db = db := by
  obtain ⟨why, hw⟩ := makeHeader_missing hdr h
  have hloop : ingestLogLoop env 0 [] db [] (hdr :: rows) =
      ⟨db, [] ++ [LogEvent.fatal why], Exit.halted⟩ := by
    simp [ingestLogLoop, hw]
  refine ⟨IngestLogRecords_exit_halted env db _ (by rw [hloop]), ?_⟩
  rw [IngestLogRecords_db, hloop]

/-- C4 on a header without `@thread_name`, followed by a data row. -/
theorem IngestLogRecords_halts_on_incomplete_header_witness :
    (IngestLogRecords (fun _ => okTx) emptyDB
      (CsvInput.records (shortHeader :: [shortLogLine]))).exit = Exit.halted ∧
    (IngestLogRecords (fun _ => okTx) emptyDB
      (CsvInput.records (shortHeader :: [shortLogLine]))).db = emptyDB :=
  IngestLogRecords_halts_on_incomplete_header (fun _ => okTx) emptyDB shortHeader [shortLogLine]
    (Or.inr (Or.inr (Or.inl (by decide))))

theorem IsStrictDateForm.length {v : Str} (h : IsStrictDateForm v) : v.length = 24 := by
  obtain ⟨y, mo, d, hh, mi, s, f, rfl, h1, h2, h3, h4, h5, h6, h7, -⟩ := h
  simp only [List.length_append, List.length_cons, List.length_nil]
  omega

/-- C5, as stated, fails: the date `2021-12-11T06:25:15Z` has no fractional second, so it is not
of the form `YYYY-MM-DDTHH:MM:SS.sssZ`, yet the run accepts it, does not halt, and inserts the
row. `Parse` also accepts a one-digit fraction, a comma before the fraction, and a one-digit
hour. -/
theorem IngestLogRecords_accepts_date_without_fraction :
    plainLogLine[0]? = some "2021-12-11T06:25:15Z".toList ∧
    ¬ IsStrictDateForm "2021-12-11T06:25:15Z".toList ∧
    (IngestLogRecords (fun _ => okTx) emptyDB
      (CsvInput.records [exampleHeader, plainLogLine])).exit = Exit.returned none ∧
    (IngestLogRecords (fun _ => okTx) emptyDB
      (CsvInput.records [exampleHeader, plainLogLine])).db.log = [plainLogRow] ∧
    Parse "2021-12-11T06:25:15.1Z".toList = some ⟨1639203915, 100000000, Location.UTC⟩ ∧
    Parse "2021-12-11T06:25:15,107Z".toList = some ⟨1639203915, 107000000, Location.UTC⟩ ∧
    Parse "2021-12-11T6:25:15.107Z".toList = some ⟨1639203915, 107000000, Location.UTC⟩ := by
  refine ⟨rfl, ?_, by decide, by decide, by decide, by decide, by decide⟩
  intro h
  have := h.length
  revert this
  decide

/-- C5, amended: in a table whose header row has the four columns and whose data rows are as
long as the header, a data row `k` whose date value is not of the loose form (four-digit year,
two-digit month and day, `T`, one- or two-digit hour, two-digit minute and second, optionally a
period or comma followed by one or more digits, then `Z`) halts the process, and only rows of
data rows before `k` have been inserted. -/
theorem IngestLogRecords_halts_on_malformed_date (env : Nat → TxOutcome) (db : DB)
    (hdr : List Str) (rows : List (List Str)) (jd js jt jm : Nat)
    (hd : IsColumn hdr fieldDate jd) (hs : IsColumn hdr fieldService js)
    (ht : IsColumn hdr fieldThread jt) (hm : IsColumn hdr fieldMessage jm)
    (hlen : ∀ x ∈ rows, x.length = hdr.length)
    (k : Nat) (x : List Str) (date : Str)
    (hk : rows[k]? = some x) (hdate : x[jd]? = some date) (hform : ¬ IsLooseDateForm date) :
    (IngestLogRecords env db (CsvInput.records (hdr :: rows))).exit = Exit.halted ∧
    ∃ j, j ≤ k ∧
      (IngestLogRecords env db (CsvInput.records (hdr :: rows))).db =
        ⟨db.batch, db.log ++ insertedLogRows env jd js jt jm 0 (rows.take j)⟩ := by
  obtain ⟨j, hj, hdb, hall, hex⟩ :=
    IngestLogRecords_table env db hdr rows jd js jt jm hd hs ht hm hlen
  have hnone := logRowOf_none_of_not_loose jd js jt jm x date hdate hform
  have hjk : j ≤ k := by
    by_contra hlt
    have hmem : x ∈ rows.take j := by
      rw [List.mem_iff_getElem?]
      exact ⟨k, by rw [List.getElem?_take_of_lt (by omega)]; exact hk⟩
    have := hall x hmem
    rw [hnone] at this
    cases this
  obtain ⟨hklt, -⟩ := List.getElem?_eq_some.mp hk
  rcases hex with ⟨e1, -⟩ | ⟨e1, -⟩
  · omega
  · exact ⟨e1, j, hjk, hdb⟩

/-- C5 amended, on a table whose second data row has the date `yesterday`: the process halts
and only the first data row is stored. -/
theorem IngestLogRecords_halts_on_malformed_date_witness :
    (IngestLogRecords (fun _ => okTx) emptyDB
      (CsvInput.records (exampleHeader :: [exampleLogLine, brokenLogLine]))).exit
        = Exit.halted ∧
    ∃ j, j ≤ 1 ∧
      (IngestLogRecords (fun _ => okTx) emptyDB
        (CsvInput.records (exampleHeader :: [exampleLogLine, brokenLogLine]))).db =
        ⟨emptyDB.batch, emptyDB.log ++
          insertedLogRows (fun _ => okTx) 0 1 2 3 0 ([exampleLogLine, brokenLogLine].take j)⟩ :=
  IngestLogRecords_halts_on_malformed_date (fun _ => okTx) emptyDB exampleHeader
    [exampleLogLine, brokenLogLine] 0 1 2 3
    ⟨rfl, by decide⟩ ⟨rfl, by decide⟩ ⟨rfl, by decide⟩ ⟨rfl, by decide⟩
    (by decide) 1 brokenLogLine "yesterday".toList rfl rfl
    (by
      rintro ⟨y, mo, d, hh, mi, s, frac, he, hy, -, -, -, -, -, dy, -⟩
      match y, hy, dy, he with
      | [a, b, c, e], _, dy, he =>
        have ha : a = 'y' := by
          have := congrArg List.head? he
          simpa using this.symm
        have := dy a (by simp)
        rw [ha] at this
        revert this
        decide)

/-! ## The reported count -/

theorem ingestLogLoop_logs (env : Nat → TxOutcome) (rows : List (List Str)) :
    ∀ (i : Nat) (h : Header) (db : DB) (logs : List LogEvent),
      (∀ ev ∈ logs, ∀ n, ev ≠ LogEvent.readLogRecords n) →
      ∀ ev ∈ (ingestLogLoop env i h db logs rows).logs, ∀ n, ev ≠ LogEvent.readLogRecords n := by
  induction rows with
  | nil => intro i h db logs hl; simpa [ingestLogLoop] using hl
  | cons x rows ih =>
    intro i h db logs hl
    have hl1 : ∀ e, ∀ ev ∈ logs ++ [LogEvent.recordFailed e], ∀ n,
        ev ≠ LogEvent.readLogRecords n := by
      intro e ev hev n
      rcases List.mem_append.mp hev with hev | hev
      · exact hl ev hev n
      · rw [List.mem_singleton] at hev
        subst hev
        exact fun hc => LogEvent.noConfusion hc
    have hl2 : ∀ w, ∀ ev ∈ logs ++ [LogEvent.fatal w], ∀ n,
        ev ≠ LogEvent.readLogRecords n := by
      intro w ev hev n
      rcases List.mem_append.mp hev with hev | hev
      · exact hl ev hev n
      · rw [List.mem_singleton] at hev
        subst hev
        exact fun hc => LogEvent.noConfusion hc
    simp only [ingestLogLoop]
    repeat' split
    all_goals first
      | exact hl
      | exact hl2 _
      | exact ih _ _ _ _ hl
      | exact ih _ _ _ _ (hl1 _)

/-- On a table with a header row, a run that returns reports the number of data rows. -/
theorem IngestLogRecords_reported_count (env : Nat → TxOutcome) (db : DB) (hdr : List Str)
    (rows : List (List Str))
    (h : (IngestLogRecords env db (CsvInput.records (hdr :: rows))).exit = Exit.returned none) :
    (IngestLogRecords env db (CsvInput.records (hdr :: rows))).reportedLogCount
      = some (rows.length : Int) := by
  have hlogs := ingestLogLoop_logs env (hdr :: rows) 0 [] db [] (by simp)
  unfold IngestLogRecords at h ⊢
  simp only at h ⊢
  split at h
  · rename_i e he
    simp only [he, Run.reportedLogCount, List.findSome?_append]
    have hnone : List.findSome? (fun ev =>
        match ev with
        | LogEvent.readLogRecords n => some n
        | _ => none) (ingestLogLoop env 0 [] db [] (hdr :: rows)).logs = none := by
      rw [List.findSome?_eq_none_iff]
      intro ev hev
      split
      · rename_i n
        exact absurd rfl (hlogs _ hev n)
      · rfl
    rw [hnone]
    simp
  · rename_i hne
    exact absurd h (by
      intro hc
      exact hne none hc)

/-! ## Insert failures, the reported count, and the release of the statement -/

/-- C6: with every job name carrying the pattern and a working store (`Begin`, `Prepare` and
`Commit` succeed), whichever insert statements fail, `IngestBatchRecords` does not halt,
returns nil, and appends to `batch` exactly the rows of the records whose insert succeeded, in
input order. The same holds for `IngestLogRecords` and `log`, on a table with the four columns
whose dates parse. -/
theorem failed_inserts_skip_only_their_record :
    (∀ (env : Nat → TxOutcome) (db : DB) (l : List JobSummary),
      (∀ s ∈ l, ContainsUuidShape s.JobName) →
      (∀ i, i < l.length → (env i).StoreHealthy) →
      (IngestBatchRecords env db (SummaryInput.decoded ⟨l⟩)).exit = Exit.returned none ∧
      (IngestBatchRecords env db (SummaryInput.decoded ⟨l⟩)).db.batch
        = db.batch ++ insertedBatchRows env 0 l ∧
      (IngestBatchRecords env db (SummaryInput.decoded ⟨l⟩)).db.log = db.log) ∧
    (∀ (env : Nat → TxOutcome) (db : DB) (hdr : List Str) (rows : List (List Str))
        (jd js jt jm : Nat),
      IsColumn hdr fieldDate jd → IsColumn hdr fieldService js →
      IsColumn hdr fieldThread jt → IsColumn hdr fieldMessage jm →
      (∀ x ∈ rows, x.length = hdr.length) →
      (∀ x ∈ rows, ∃ date t, x[jd]? = some date ∧ Parse date = some t) →
      (∀ i, i < rows.length → (env i).StoreHealthy) →
      (IngestLogRecords env db (CsvInput.records (hdr :: rows))).exit = Exit.returned none ∧
      (IngestLogRecords env db (CsvInput.records (hdr :: rows))).db.log
        = db.log ++ insertedLogRows env jd js jt jm 0 rows ∧
      (IngestLogRecords env db (CsvInput.records (hdr :: rows))).db.batch = db.batch) := by
  constructor
  · intro env db l hpat hst
    obtain ⟨logs', hl⟩ := ingestBatchLoop_append env l [] 0 db
      [LogEvent.readBatchRecords l.length] hpat (by intro j hj; simpa using hst j hj)
    rw [List.append_nil] at hl
    rw [IngestBatchRecords_decoded, hl]
    simp [ingestBatchLoop]
  · intro env db hdr rows jd js jt jm hd hs ht hm hlen hparse hst
    have hsome : ∀ x ∈ rows, (logRowOf jd js jt jm x).isSome = true := by
      intro x hx
      refine logRowOf_isSome_of_parse jd js jt jm x ?_ (hparse x hx)
      rw [hlen x hx]
      exact ⟨hd.lt_length, hs.lt_length, ht.lt_length, hm.lt_length⟩
    obtain ⟨j, hj, hdb, -, hex⟩ :=
      IngestLogRecords_table env db hdr rows jd js jt jm hd hs ht hm hlen
    rcases hex with ⟨e1, e2⟩ | ⟨-, x, e2, e3⟩
    · subst e1
      rw [List.take_length] at hdb
      exact ⟨e2, by rw [hdb], by rw [hdb]⟩
    · exfalso
      obtain ⟨hlt, hxe⟩ := List.getElem?_eq_some.mp e2
      rcases e3 with e3 | e3
      · have := hsome x (hxe ▸ List.getElem_mem _)
        rw [e3] at this
        cases this
      · exact e3 (hst j hlt)

/-- C6 on two copies of the example job, and on the two example log lines, with the insert of
record 0 failing: only the row of record 1 is stored, and the run returns nil. -/
theorem failed_inserts_skip_only_their_record_witness :
    ((IngestBatchRecords firstInsertFails emptyDB
        (SummaryInput.decoded ⟨[exampleJob, exampleJob]⟩)).exit = Exit.returned none ∧
      (IngestBatchRecords firstInsertFails emptyDB
        (SummaryInput.decoded ⟨[exampleJob, exampleJob]⟩)).db.batch
        = emptyDB.batch ++ insertedBatchRows firstInsertFails 0 [exampleJob, exampleJob] ∧
      (IngestBatchRecords firstInsertFails emptyDB
        (SummaryInput.decoded ⟨[exampleJob, exampleJob]⟩)).db.log = emptyDB.log) ∧
    ((IngestLogRecords firstInsertFails emptyDB
        (CsvInput.records (exampleHeader :: [exampleLogLine, plainLogLine]))).exit
        = Exit.returned none ∧
      (IngestLogRecords firstInsertFails emptyDB
        (CsvInput.records (exampleHeader :: [exampleLogLine, plainLogLine]))).db.log
        = emptyDB.log ++
            insertedLogRows firstInsertFails 0 1 2 3 0 [exampleLogLine, plainLogLine] ∧
      (IngestLogRecords firstInsertFails emptyDB
        (CsvInput.records (exampleHeader :: [exampleLogLine, plainLogLine]))).db.batch
        = emptyDB.batch) ∧
    insertedBatchRows firstInsertFails 0 [exampleJob, exampleJob] = [exampleBatchRow] ∧
    insertedLogRows firstInsertFails 0 1 2 3 0 [exampleLogLine, plainLogLine] = [plainLogRow] :=
  ⟨failed_inserts_skip_only_their_record.1 firstInsertFails emptyDB [exampleJob, exampleJob]
    (by
      intro s hs
      have : s = exampleJob := by simpa using hs
      subst this
      exact (ContainsUuidShape_iff _).mpr (by decide))
    (by
      intro i hi
      have : i = 0 ∨ i = 1 := by simp at hi; omega
      rcases this with rfl | rfl <;> exact ⟨rfl, rfl, rfl⟩),
   failed_inserts_skip_only_their_record.2 firstInsertFails emptyDB exampleHeader
    [exampleLogLine, plainLogLine] 0 1 2 3
    ⟨rfl, by decide⟩ ⟨rfl, by decide⟩ ⟨rfl, by decide⟩ ⟨rfl, by decide⟩
    (by decide)
    (by
      intro x hx
      have : x = exampleLogLine ∨ x = plainLogLine := by simpa using hx
      rcases this with rfl | rfl
      · exact ⟨"2021-12-11T06:25:15.107Z".toList, ⟨1639203915, 107000000, Location.UTC⟩, rfl,
          by decide⟩
      · exact ⟨"2021-12-11T06:25:15Z".toList, ⟨1639203915, 0, Location.UTC⟩, rfl, by decide⟩)
    (by
      intro i hi
      have : i = 0 ∨ i = 1 := by simp at hi; omega
      rcases this with rfl | rfl <;> exact ⟨rfl, rfl, rfl⟩),
   by decide, by decide⟩

/-- C9, at the failing input: on an input with no record at all (an empty file), which has no
data row and for which no insert is attempted, `IngestLogRecords` returns nil, leaves the tables
as they were, and reports the count -1. -/
theorem IngestLogRecords_reports_minus_one_on_empty_input (env : Nat → TxOutcome) (db : DB) :
    (IngestLogRecords env db (CsvInput.records [])).reportedLogCount = some (-1) ∧
    (IngestLogRecords env db (CsvInput.records [])).exit = Exit.returned none ∧
    (IngestLogRecords env db (CsvInput.records [])).db = db ∧
    (IngestLogRecords env db (CsvInput.records [])).logs = [LogEvent.readLogRecords (-1)] := by
  refine ⟨rfl, rfl, rfl, rfl⟩

/-- C10: in `readBatchRecordIntoDB` and `readLogRecordIntoDB`, with `Begin` and `Prepare`
succeeding (and the job name carrying the pattern): when the insert and the commit succeed, the
row is inserted, the deferred `Close` reports nil (the commit has already closed the statement)
and the caller gets nil, so whatever `Close` reports is what the caller gets and no release
failure is dropped; when the insert fails with `e`, the caller gets `e` wrapped, whatever the
release of the statement reports, and the error slot keeps `e`. -/
theorem release_result_and_returned_error (o : TxOutcome) (db : DB) (s : JobSummary)
    (id : Str) (ts : Time) (service thread : Str)
    (hb : o.beginErr = none) (hp : o.prepareErr = none)
    (hs : ContainsUuidShape s.JobName) :
    (o.execErr = none → o.commitErr = none →
      (∃ fr, readBatchRecordIntoDB o db s =
          Except.ok (⟨db.batch ++ [batchRow (FindString uuidMatchingMachine s.JobName) s],
            db.log⟩, fr) ∧
        fr.released = none ∧ fr.ret = none ∧ fr.err = none ∧
        (∀ ce, fr.released = some ce → fr.ret = some ce)) ∧
      (∃ fr, readLogRecordIntoDB o db id ts service thread =
          Except.ok (⟨db.batch, db.log ++ [⟨id, ts, service, thread⟩]⟩, fr) ∧
        fr.released = none ∧ fr.ret = none ∧ fr.err = none ∧
        (∀ ce, fr.released = some ce → fr.ret = some ce))) ∧
    (∀ e, o.execErr = some e →
      (∃ fr, readBatchRecordIntoDB o db s = Except.ok (db, fr) ∧
        fr.ret = some (Error.wrapped "failed to retrieve last inserted book" e) ∧
        fr.released = o.closeErr ∧ fr.err = some e) ∧
      (∃ fr, readLogRecordIntoDB o db id ts service thread = Except.ok (db, fr) ∧
        fr.ret = some (Error.wrapped "failed to retrieve last inserted book" e) ∧
        fr.released = o.closeErr ∧ fr.err = some e)) := by
  have hne : FindString uuidMatchingMachine s.JobName ≠ [] := (ContainsUuidShape_iff _).mp hs
  obtain ⟨b, p, x, c, cl⟩ := o
  simp only at hb hp
  subst hb hp
  constructor
  · intro hx hc
    simp only at hx hc
    subst hx hc
    refine ⟨⟨returning none none (TxStmt.afterCommit ⟨cl, false, 0⟩), ?_, rfl, rfl, rfl, ?_⟩,
      ⟨returning none none (TxStmt.afterCommit ⟨cl, false, 0⟩), rfl, rfl, rfl, rfl, ?_⟩⟩
    · simp [readBatchRecordIntoDB, MustCheck, hne]
    · intro ce h; cases h
    · intro ce h; cases h
  · intro e hx
    simp only at hx
    subst hx
    refine ⟨⟨returning (some (Error.wrapped "failed to retrieve last inserted book" e))
        (some e) ⟨cl, false, 0⟩, ?_, rfl, rfl, ?_⟩,
      ⟨returning (some (Error.wrapped "failed to retrieve last inserted book" e))
        (some e) ⟨cl, false, 0⟩, rfl, rfl, rfl, ?_⟩⟩
    · simp [readBatchRecordIntoDB, MustCheck, hne]
    · simp [returning, SafeClose]
    · simp [returning, SafeClose]

/-- C10 on the example job: with every call succeeding and a driver that would report an error
on the release of the statement, the row is stored, the deferred `Close` reports nil and the
caller gets nil; with the insert failing with error 19 and the release with error 5, the caller
gets error 19 wrapped. -/
theorem release_result_and_returned_error_witness :
    (∃ fr, readBatchRecordIntoDB closeFailsTx emptyDB exampleJob =
        Except.ok (⟨emptyDB.batch ++
          [batchRow (FindString uuidMatchingMachine exampleJob.JobName) exampleJob],
          emptyDB.log⟩, fr) ∧
      fr.released = none ∧ fr.ret = none ∧ fr.err = none ∧
      (∀ ce, fr.released = some ce → fr.ret = some ce)) ∧
    (∃ fr, readLogRecordIntoDB execAndCloseFailTx emptyDB exampleLogRow.id exampleLogRow.ts
        exampleLogRow.service exampleLogRow.thread = Except.ok (emptyDB, fr) ∧
      fr.ret = some (Error.wrapped "failed to retrieve last inserted book" (Error.lib 19)) ∧
      fr.released = execAndCloseFailTx.closeErr ∧ fr.err = some (Error.lib 19)) ∧
    execAndCloseFailTx.closeErr = some (Error.lib 5) :=
  ⟨((release_result_and_returned_error closeFailsTx emptyDB exampleJob exampleLogRow.id
      exampleLogRow.ts exampleLogRow.service exampleLogRow.thread rfl rfl
      ((ContainsUuidShape_iff _).mpr (by decide))).1 rfl rfl).1,
   ((release_result_and_returned_error execAndCloseFailTx emptyDB exampleJob exampleLogRow.id
      exampleLogRow.ts exampleLogRow.service exampleLogRow.thread rfl rfl
      ((ContainsUuidShape_iff _).mpr (by decide))).2 (Error.lib 19) rfl).2,
   rfl⟩

/-! ## Column order -/

/-- C8: for a table whose header row carries each of the four column names exactly once and
whose data rows are as long as the header, and for every permutation `p` of the column
positions applied to the header and to every data row, `IngestLogRecords` leaves the same
`log` (and `batch`) and ends the same way on the permuted table as on the original. -/
theorem IngestLogRecords_column_order (env : Nat → TxOutcome) (db : DB) (hdr : List Str)
    (rows : List (List Str)) (p : List Nat)
    (hd : occurrences fieldDate hdr = 1) (hs : occurrences fieldService hdr = 1)
    (ht : occurrences fieldThread hdr = 1) (hm : occurrences fieldMessage hdr = 1)
    (hlen : ∀ x ∈ rows, x.length = hdr.length)
    (hp : p.Perm (List.range hdr.length)) :
    (IngestLogRecords env db
        (CsvInput.records (permute p hdr :: rows.map (permute p)))).db.log =
      (IngestLogRecords env db (CsvInput.records (hdr :: rows))).db.log ∧
    (IngestLogRecords env db
        (CsvInput.records (permute p hdr :: rows.map (permute p)))).db.batch =
      (IngestLogRecords env db (CsvInput.records (hdr :: rows))).db.batch ∧
    (IngestLogRecords env db
        (CsvInput.records (permute p hdr :: rows.map (permute p)))).exit =
      (IngestLogRecords env db (CsvInput.records (hdr :: rows))).exit := by
  obtain ⟨jd, cd⟩ := header_field hdr _ hd
  obtain ⟨js, cs⟩ := header_field hdr _ hs
  obtain ⟨jt, ct⟩ := header_field hdr _ ht
  obtain ⟨jm, cm⟩ := header_field hdr _ hm
  obtain ⟨h, hh, i1, i2, i3, i4⟩ := makeHeader_ok hdr jd js jt jm cd cs ct cm
  have hperm := permute_perm p hdr hp
  obtain ⟨jd', cd'⟩ := header_field (permute p hdr) fieldDate ((hperm.countP_eq _).trans hd)
  obtain ⟨js', cs'⟩ := header_field (permute p hdr) fieldService ((hperm.countP_eq _).trans hs)
  obtain ⟨jt', ct'⟩ := header_field (permute p hdr) fieldThread ((hperm.countP_eq _).trans ht)
  obtain ⟨jm', cm'⟩ := header_field (permute p hdr) fieldMessage ((hperm.countP_eq _).trans hm)
  obtain ⟨h', hh', i1', i2', i3', i4'⟩ :=
    makeHeader_ok (permute p hdr) jd' js' jt' jm' cd' cs' ct' cm'
  have hsame : List.Forall₂ (SameFields h' h) (rows.map (permute p)) rows := by
    rw [List.forall₂_map_left_iff, List.forall₂_same]
    intro x hx
    have hxl := hlen x hx
    refine ⟨?_, ?_, ?_, ?_⟩
    · rw [i1, i1']; exact permuted_field hdr x p _ jd jd' hd hp hxl cd.1 cd'.1
    · rw [i4, i4']; exact permuted_field hdr x p _ jm jm' hm hp hxl cm.1 cm'.1
    · rw [i2, i2']; exact permuted_field hdr x p _ js js' hs hp hxl cs.1 cs'.1
    · rw [i3, i3']; exact permuted_field hdr x p _ jt jt' ht hp hxl ct.1 ct'.1
  have hc := ingestLogLoop_congr env h' h _ _ hsame 0 db [] []
  have l1 := ingestLogLoop_header_ok env db hdr rows h hh
  have l2 := ingestLogLoop_header_ok env db (permute p hdr) (rows.map (permute p)) h' hh'
  refine ⟨?_, ?_, ?_⟩
  · rw [IngestLogRecords_db, IngestLogRecords_db, l1, l2, hc.1]
  · rw [IngestLogRecords_db, IngestLogRecords_db, l1, l2, hc.1]
  · rw [IngestLogRecords_exit_eq, IngestLogRecords_exit_eq, l1, l2, hc.2]

/-- C8 on the two example lines with the columns in the order message, date, thread,
service. -/
theorem IngestLogRecords_column_order_witness :
    (IngestLogRecords (fun _ => okTx) emptyDB
        (CsvInput.records (permute [3, 0, 2, 1] exampleHeader ::
          [exampleLogLine, plainLogLine].map (permute [3, 0, 2, 1])))).db.log =
      (IngestLogRecords (fun _ => okTx) emptyDB
        (CsvInput.records (exampleHeader :: [exampleLogLine, plainLogLine]))).db.log ∧
    (IngestLogRecords (fun _ => okTx) emptyDB
        (CsvInput.records (permute [3, 0, 2, 1] exampleHeader ::
          [exampleLogLine, plainLogLine].map (permute [3, 0, 2, 1])))).db.batch =
      (IngestLogRecords (fun _ => okTx) emptyDB
        (CsvInput.records (exampleHeader :: [exampleLogLine, plainLogLine]))).db.batch ∧
    (IngestLogRecords (fun _ => okTx) emptyDB
        (CsvInput.records (permute [3, 0, 2, 1] exampleHeader ::
          [exampleLogLine, plainLogLine].map (permute [3, 0, 2, 1])))).exit =
      (IngestLogRecords (fun _ => okTx) emptyDB
        (CsvInput.records (exampleHeader :: [exampleLogLine, plainLogLine]))).exit :=
  IngestLogRecords_column_order (fun _ => okTx) emptyDB exampleHeader
    [exampleLogLine, plainLogLine] [3, 0, 2, 1]
    (by decide) (by decide) (by decide) (by decide) (by decide) (by decide)

end BatchToSqlite
